import Mathlib

/-!
# Verification of the libchewing core against its specification

This development gives a shallow embedding, in Lean 4, of the parts of the
libchewing Rust sources that the specification talks about:

* the Bopomofo alphabet and the 16-bit packed `Syllable`
  (`src/zhuyin/bopomofo.rs`, `src/zhuyin/syllable.rs`);
* the two conversion engines (`src/conversion/chewing_conversion.rs`,
  `src/conversion/experimental_conversion.rs`);
* the chained and layered dictionaries (`src/dictionary.rs`,
  `src/dictionary/layered.rs`);
* the SQLite-backed user dictionary (`src/dictionary/sqlite.rs`), whose SQL
  statements are embedded through the documented semantics of SQLite
  (ORDER BY with ascending NULLS FIRST, INSERT conflicting with a primary
  key, CREATE TABLE IF NOT EXISTS);
* the Standard (Dachen) and Hsu phonetic key editors
  (`src/editor/phonetic/standard.rs`, `src/editor/phonetic/hsu.rs`).

Machine integers (`u16`, `u32`, `i32`, `usize`) are modelled as `Nat`/`Int`;
all the quantities involved in the embedded code paths stay far below the
overflow bounds, and the places where the Rust code would panic (debug
assertions, `expect`, out-of-fuel recursion) are modelled with `Option` or
`Except` so that partiality is explicit.
-/

/-! ## Bopomofo (`src/zhuyin/bopomofo.rs`)

The 41 phonetic symbols with their `#[repr]` discriminants (`B = 0` through
`TONE1 = 41`, as declared in the Rust enum) and their kinds. -/

inductive BopomofoKind where
  | initial
  | medial
  | rime
  | tone
deriving DecidableEq, Repr

inductive Bopomofo where
  | B | P | M | F | D | T | N | L | G | K | H | J | Q | X
  | ZH | CH | SH | R | Z | C | S
  | I | U | IU
  | A | O | E | EH | AI | EI | AU | OU | AN | EN | ANG | ENG | ER
  | TONE5 | TONE2 | TONE3 | TONE4 | TONE1
deriving DecidableEq, Repr

namespace Bopomofo

/-- The discriminant of the Rust `enum Bopomofo` (`B = 0`, …, `TONE1 = 41`),
used by the `as u16` casts in the syllable packing code. -/
def toNat : Bopomofo → Nat
  | .B => 0 | .P => 1 | .M => 2 | .F => 3 | .D => 4 | .T => 5 | .N => 6
  | .L => 7 | .G => 8 | .K => 9 | .H => 10 | .J => 11 | .Q => 12 | .X => 13
  | .ZH => 14 | .CH => 15 | .SH => 16 | .R => 17 | .Z => 18 | .C => 19
  | .S => 20
  | .I => 21 | .U => 22 | .IU => 23
  | .A => 24 | .O => 25 | .E => 26 | .EH => 27 | .AI => 28 | .EI => 29
  | .AU => 30 | .OU => 31 | .AN => 32 | .EN => 33 | .ANG => 34 | .ENG => 35
  | .ER => 36
  | .TONE5 => 37 | .TONE2 => 38 | .TONE3 => 39 | .TONE4 => 40 | .TONE1 => 41

/-- `Bopomofo::kind` from the source. -/
def kind : Bopomofo → BopomofoKind
  | .B | .P | .M | .F | .D | .T | .N | .L | .G | .K | .H | .J | .Q | .X
  | .ZH | .CH | .SH | .R | .Z | .C | .S => .initial
  | .I | .U | .IU => .medial
  | .A | .O | .E | .EH | .AI | .EI | .AU | .OU | .AN | .EN | .ANG | .ENG
  | .ER => .rime
  | .TONE5 | .TONE2 | .TONE3 | .TONE4 | .TONE1 => .tone

end Bopomofo

/-! ## Syllable packing (`src/zhuyin/syllable.rs`)

The Rust `Syllable` literally wraps the packed `u16` (`struct Syllable
{ value: u16 }`).  The bit layout is `initial` in bits 15..9, `medial` in
bits 8..7, `rime` in bits 6..3, `tone` in bits 2..0. -/

structure Syllable where
  value : Nat
deriving DecidableEq, Repr

namespace Syllable

/-- `Syllable::new()`. -/
def new : Syllable := ⟨0⟩

/-- `Syllable::is_empty`. -/
def is_empty (s : Syllable) : Bool := s.value == 0

/-- `Syllable::update`: replaces the same-kind slot, in the exact bit
arithmetic of the source (`remove_*` masks followed by `|=` of the shifted
discriminant offset).  Note that `update(TONE1)` writes `41 - 36 = 5` into
the three tone bits, exactly as the source does. -/
def update (s : Syllable) (b : Bopomofo) : Syllable :=
  match b.kind with
  | .initial => ⟨(s.value &&& 0b0000000111111111) ||| ((b.toNat + 1) <<< 9)⟩
  | .medial => ⟨(s.value &&& 0b1111111001111111) ||| ((b.toNat - 20) <<< 7)⟩
  | .rime => ⟨(s.value &&& 0b1111111110000111) ||| ((b.toNat - 23) <<< 3)⟩
  | .tone => ⟨(s.value &&& 0b1111111111111000) ||| (b.toNat - 36)⟩

/-- `Syllable::to_u16` in release builds: it just returns the wrapped
value. -/
def to_u16 (s : Syllable) : Nat := s.value

/-- `Syllable::to_u16` including its debug assertion
`debug_assert!(!self.is_empty())`: encoding the empty syllable fails (panics
in debug builds), every other syllable returns the wrapped value. -/
def to_u16_checked (s : Syllable) : Option Nat :=
  if s.is_empty then none else some s.value

/-- The error type of `TryFrom<u16> for Syllable` (the source never actually
produces it: the conversion is marked `TODO check invalid value`). -/
inductive DecodeSyllableError where
  | decode
deriving DecidableEq, Repr

/-- `TryFrom<u16> for Syllable`: the source performs no validation and wraps
the raw value (`Ok(Syllable { value })`). -/
def try_from_u16 (x : Nat) : Except DecodeSyllableError Syllable :=
  .ok ⟨x⟩

/-- Build the syllable holding the given optional Bopomofo per slot by
applying `update` to the empty syllable, in display order.  This is the
"any combination of at most one Bopomofo per kind" of the specification. -/
def of_parts (i m r t : Option Bopomofo) : Syllable :=
  let s := Syllable.new
  let s := match i with | some b => s.update b | none => s
  let s := match m with | some b => s.update b | none => s
  let s := match r with | some b => s.update b | none => s
  match t with | some b => s.update b | none => s

/-- The field ranges the specification calls a legal 16-bit encoding:
initial 0..21, medial 0..3, rime 0..13, tone 0..4. -/
def legal_u16 (x : Nat) : Prop :=
  x < 65536 ∧ (x >>> 9) ≤ 21 ∧ ((x >>> 7) &&& 0b11) ≤ 3 ∧
    ((x >>> 3) &&& 0b1111) ≤ 13 ∧ (x &&& 0b111) ≤ 4

instance : DecidablePred legal_u16 := fun x => by
  unfold legal_u16; infer_instance

end Syllable

/-- Shorthand used below to build concrete syllables the way the Rust test
code uses the `syl!` macro (a fold of builder inserts; for at most one
symbol per kind this agrees with `update`). -/
def syl (bs : List Bopomofo) : Syllable :=
  bs.foldl Syllable.update Syllable.new

namespace Chewing

/-! ## Conversion data model (`src/conversion.rs`)

`Interval.stop` is the field called `end` in the source (`end` is a Lean
keyword).  `Phrase` is the dictionary phrase type from `src/dictionary.rs`
(`{ phrase: String, freq: u32 }`). -/

structure Phrase where
  phrase : String
  freq : Nat
deriving DecidableEq, Repr

structure Interval where
  start : Nat
  stop : Nat
  phrase : String
deriving DecidableEq, Repr

structure ChineseSequence where
  syllables : List Syllable
  selections : List Interval
  breaks : List Nat
deriving DecidableEq, Repr

/-- A dictionary, seen through the only operation the conversion engines
use: `Dictionary::lookup_phrase`, a function from syllable sequences to the
(ordered) list of phrases. -/
abbrev Dict := List Syllable → List Phrase

/-- The slice `seq.syllables[b..e]` of the Rust code. -/
def sylSlice (seq : ChineseSequence) (b e : Nat) : List Syllable :=
  (seq.syllables.drop b).take (e - b)

/-- The selection-compatibility test shared by both engines: a phrase is
rejected when some user selection lies inside `[start, stop)` and the
corresponding substring of the phrase text differs from the selected text
(`phrase.as_str().chars().skip(offset).take(len)`). -/
def selectionRejects (selections : List Interval) (start stop : Nat)
    (p : Phrase) : Bool :=
  selections.any fun sel =>
    start ≤ sel.start && stop ≥ sel.stop &&
      (String.mk ((p.phrase.toList.drop (sel.start - start)).take
        (sel.stop - sel.start)) != sel.phrase)

/-! ## `ChewingConversionEngine` (`src/conversion/chewing_conversion.rs`) -/

/-- `ChewingConversionEngine::find_best_phrase`.  The fold state mirrors the
pair of mutable locals `(max_freq, best_phrase)`. -/
def chFindBestPhrase (dict : Dict) (offset : Nat) (syllables : List Syllable)
    (selections : List Interval) (breaks : List Nat) : Option Phrase :=
  let start := offset
  let stop := offset + syllables.length
  if breaks.any (fun br => start < br && br < stop) then
    none
  else
    ((dict syllables).foldl
      (fun acc p =>
        if selectionRejects selections start stop p then acc
        else if acc.2.isNone || acc.1 < p.freq then (p.freq, some p)
        else acc)
      ((0 : Nat), (none : Option Phrase))).2

/-- `PossibleInterval` from the source; `stop` is the source's `end`. -/
structure PossibleInterval where
  start : Nat
  stop : Nat
  phrase : Phrase
deriving DecidableEq, Repr

instance : Inhabited PossibleInterval := ⟨⟨0, 0, ⟨"", 0⟩⟩⟩

/-- `From<PossibleInterval> for Interval`. -/
def PossibleInterval.toInterval (pi : PossibleInterval) : Interval :=
  ⟨pi.start, pi.stop, pi.phrase.phrase⟩

def PossibleInterval.len (pi : PossibleInterval) : Nat := pi.stop - pi.start

/-- `ChewingConversionEngine::find_intervals`: every range `[b, e)` with
`0 ≤ b < n`, `b ≤ e ≤ n` (in that enumeration order) that has a best
phrase. -/
def chFindIntervals (dict : Dict) (seq : ChineseSequence) :
    List PossibleInterval :=
  let n := seq.syllables.length
  (List.range n).flatMap fun b =>
    (List.range (n + 1 - b)).filterMap fun d =>
      let e := b + d
      (chFindBestPhrase dict b (sylSlice seq b e) seq.selections
        seq.breaks).map fun p => ⟨b, e, p⟩

/-- `rule_largest_sum`: the number of covered positions. -/
def ruleLargestSum (idx : List Nat) (ivs : List PossibleInterval) : Nat :=
  idx.foldl (fun acc i => acc + (ivs.getD i default).len) 0

/-- `rule_largest_avgwordlen`: `6 * sum / count` in truncating integer
division (all values are non-negative, so the `i32` division of the source
agrees with `Nat` division). -/
def ruleLargestAvgWordLen (idx : List Nat) (ivs : List PossibleInterval) :
    Nat :=
  6 * ruleLargestSum idx ivs / idx.length

/-- `rule_smallest_lenvariance` without its final negation: the sum of
`abs_diff` of lengths over all pairs `i < j`.  The source negates this value
and the caller multiplies it by 100; we keep the magnitude in `Nat` and
subtract it in `dpScore`. -/
def ruleSmallestLenVariance (idx : List Nat) (ivs : List PossibleInterval) :
    Nat :=
  ((List.range idx.length).flatMap fun i =>
    (List.range idx.length).filterMap fun j =>
      if i < j then
        some ((ivs.getD (idx.getD i 0) default).len.dist
          (ivs.getD (idx.getD j 0) default).len)
      else none).foldl (· + ·) 0

/-- `rule_largest_freqsum`: frequency sum with the single-syllable penalty
`freq / 512`. -/
def ruleLargestFreqSum (idx : List Nat) (ivs : List PossibleInterval) : Nat :=
  idx.foldl
    (fun acc i =>
      let iv := ivs.getD i default
      acc + iv.phrase.freq / (if iv.len == 1 then 512 else 1))
    0

/-- The score assembled in `dp_phrasing`:
`1000*sum + 1000*avgwordlen + 100*(-lenvariance) + freqsum`. -/
def dpScore (idx : List Nat) (ivs : List PossibleInterval) : Int :=
  1000 * (ruleLargestSum idx ivs : Int)
    + 1000 * (ruleLargestAvgWordLen idx ivs : Int)
    - 100 * (ruleSmallestLenVariance idx ivs : Int)
    + (ruleLargestFreqSum idx ivs : Int)

/-- `RecordNode` (the `n_match_connect`/`next` fields are never used by
`dp_phrasing` and are omitted). -/
structure RecordNode where
  interval_index : List Nat
  score : Int
deriving DecidableEq, Repr

instance : Inhabited RecordNode := ⟨⟨[], 0⟩⟩

/-- One iteration of the `for i in 0..intervals.len()` loop of
`dp_phrasing`, acting on the `highest_score` array. -/
def dpStep (ivs : List PossibleInterval) (hs : Array RecordNode) (i : Nat) :
    Array RecordNode :=
  let iv := ivs.getD i default
  let idx := (hs.getD iv.start default).interval_index ++ [i]
  let record : RecordNode := ⟨idx, dpScore idx ivs⟩
  if (hs.getD iv.stop default).score < record.score then
    hs.setD iv.stop record
  else hs

/-- `ChewingConversionEngine::dp_phrasing`.  The source first stably sorts
the intervals by increasing `end` (Rust's `sort_by` is stable, as is
`List.insertionSort`), then runs the indexed loop, then maps the final
record's interval indices back to intervals. -/
def dpPhrasing (len : Nat) (intervals : List PossibleInterval) :
    List Interval :=
  let sorted := List.insertionSort (fun a b => a.stop ≤ b.stop) intervals
  let hs := (List.range sorted.length).foldl (dpStep sorted)
    (Array.mkArray (len + 1) default)
  (hs.getD len default).interval_index.map fun i =>
    (sorted.getD i default).toInterval

/-- `ChewingConversionEngine::convert_next`.  The `next` parameter is
accepted but never used by the source body. -/
def chewingConvertNext (dict : Dict) (seq : ChineseSequence) (next : Nat) :
    List Interval :=
  let _ := next
  dpPhrasing seq.syllables.length (chFindIntervals dict seq)

/-- `ChewingConversionEngine::convert` (defined as `convert_next(seq, 0)` in
the source). -/
def chewingConvert (dict : Dict) (seq : ChineseSequence) : List Interval :=
  chewingConvertNext dict seq 0

/-! ## `ExperimentalConversionEngine`
(`src/conversion/experimental_conversion.rs`)

The `Graph` structure of the source only memoises `find_best_phrase`
results (`entry(s, t).or_insert_with(...)`), and its removed-edge/node sets
are never populated on the `convert`/`convert_next` paths, so the embedding
calls `find_best_phrase` directly.  Recursions that the Rust code performs
with unbounded call depth (`find_all_paths` when the dictionary maps the
empty syllable list to a phrase) or with an unbounded loop (`from_dp` on a
malformed back-pointer array) take a fuel argument; running out of fuel
models the diverging execution and is reported as `none`. -/

/-- `ExperimentalConversionEngine::find_best_phrase`.  It differs from the
chewing engine's version in the update condition: `phrase.freq() > max_freq`
only (no `best_phrase.is_none()` disjunct). -/
def exFindBestPhrase (dict : Dict) (offset : Nat) (syllables : List Syllable)
    (selections : List Interval) (breaks : List Nat) : Option Phrase :=
  let start := offset
  let stop := offset + syllables.length
  if breaks.any (fun br => start < br && br < stop) then
    none
  else
    ((dict syllables).foldl
      (fun acc p =>
        if selectionRejects selections start stop p then acc
        else if acc.1 < p.freq then (p.freq, some p)
        else acc)
      ((0 : Nat), (none : Option Phrase))).2

/-- The DP `Node` of the source. -/
structure Node where
  best_source : Nat
  best_score : Nat
  best_phrase : Option Phrase
deriving DecidableEq, Repr

instance : Inhabited Node := ⟨⟨0, 0, none⟩⟩

/-- `ExperimentalConversionEngine::calculate_score`:
`source.best_score + len * max(freq / reduction_factor, 1)`. -/
def calculateScore (sourceNode : Node) (start stop freq : Nat) : Nat :=
  let len := stop - start
  let reductionFactor := if len == 1 then 512 else 1
  sourceNode.best_score + len * (Nat.max (freq / reductionFactor) 1)

/-- The body of the inner `for s in source..t` loop of `find_best_path`. -/
def exDpInner (dict : Dict) (seq : ChineseSequence) (t : Nat)
    (dp : Array Node) (s : Nat) : Array Node :=
  match exFindBestPhrase dict s (sylSlice seq s t) seq.selections
      seq.breaks with
  | none => dp
  | some p =>
    let score := calculateScore (dp.getD s default) s t p.freq
    if (dp.getD t default).best_score < score then
      dp.setD t ⟨s, score, some p⟩
    else dp

/-- The DP array built by `find_best_path` (the `for t in source..=target`
loop over `for s in source..t`). -/
def exDp (dict : Dict) (seq : ChineseSequence) (source target : Nat) :
    Array Node :=
  (List.range' source (target + 1 - source)).foldl
    (fun dp t => (List.range' source (t - source)).foldl (exDpInner dict seq t) dp)
    (Array.mkArray (target + 1) default)

/-- The `Path` of the source (`score` plus intervals). -/
structure Path where
  score : Nat
  intervals : List Interval
deriving DecidableEq, Repr

instance : Inhabited Path := ⟨⟨0, []⟩⟩

/-- The reconstruction loop of `Path::from_dp`; `none` models the
`expect("all solutions should have valid phrases")` panic and (at fuel 0)
a non-terminating walk. -/
def fromDpGo (dp : Array Node) :
    Nat → Nat → Nat → Nat → List Interval → Option Path
  | 0, _, _, _, _ => none
  | fuel + 1, start, e, score, acc =>
    match (dp.getD e default).best_phrase with
    | none => none
    | some ph =>
      let score := score + (dp.getD e default).best_score
      let acc := acc ++ [⟨start, e, ph.phrase⟩]
      if start == 0 then some ⟨score, acc⟩
      else fromDpGo dp fuel (dp.getD start default).best_source start score acc

/-- `Path::from_dp`. -/
def fromDp (dp : Array Node) (e : Nat) : Option Path :=
  fromDpGo dp (e + 1) (dp.getD e default).best_source e 0 []

/-- `ExperimentalConversionEngine::convert`.  `none` models a panic inside
`Path::from_dp`. -/
def exConvert (dict : Dict) (seq : ChineseSequence) :
    Option (List Interval) :=
  if seq.syllables.isEmpty then some []
  else
    (fromDp (exDp dict seq 0 seq.syllables.length) seq.syllables.length).map
      Path.intervals

/-- `ExperimentalConversionEngine::find_all_paths`, with fuel for the
unbounded recursion.  The result accumulates, for each `t` with a phrase
over `[source, t)`, the paths extending `pfx` by that interval. -/
def findAllPaths (dict : Dict) (seq : ChineseSequence) :
    Nat → Nat → Nat → Option Path → Option (List Path)
  | 0, _, _, _ => none
  | fuel + 1, source, target, pfx =>
    if source == target then
      match pfx with
      | some p => some [p]
      | none => none
    else
      (List.range' source (target + 1 - source)).foldl
        (fun acc t =>
          match acc with
          | none => none
          | some paths =>
            match exFindBestPhrase dict source (sylSlice seq source t)
                seq.selections seq.breaks with
            | none => some paths
            | some ph =>
              let p := pfx.getD default
              let p : Path := ⟨p.score + 1,
                p.intervals ++ [⟨source, t, ph.phrase⟩]⟩
              match findAllPaths dict seq fuel t target (some p) with
              | none => none
              | some sub => some (paths ++ sub))
        (some [])

/-- `ExperimentalConversionEngine::convert_next`: enumerate all paths, sort
them stably by `Path`'s `Ord` (which compares the `score` field only), and
take element `next` of the cycled list.  `none` models either a panic
(`expect("should have path")` on an empty path list) or a diverging
`find_all_paths`. -/
def exConvertNext (dict : Dict) (seq : ChineseSequence) (next : Nat) :
    Option (List Interval) :=
  if seq.syllables.isEmpty then some []
  else
    match findAllPaths dict seq (2 * seq.syllables.length + 2) 0
        seq.syllables.length none with
    | none => none
    | some paths =>
      let paths := List.insertionSort (fun p q : Path => p.score ≤ q.score)
        paths
      if paths.isEmpty then none
      else (paths.get? (next % paths.length)).map Path.intervals

/-! ## Concrete inputs

`testDict`/`seq6` reproduce the dictionary and the six-syllable sequence
(國民大會代表) used by the unit tests of both conversion engine source
files.  `dictAB`/`seqAB` is a two-syllable sequence over a dictionary of
two single-syllable phrases, and `dict54`/`seq54` is a 54-syllable sequence
over a dictionary holding every single syllable (frequency 1) plus one
30-syllable phrase. -/

def tGUO : Syllable := syl [.G, .U, .O, .TONE2]
def tMIN : Syllable := syl [.M, .I, .EN, .TONE2]
def tDA : Syllable := syl [.D, .A, .TONE4]
def tHUI : Syllable := syl [.H, .U, .EI, .TONE4]
def tDAI : Syllable := syl [.D, .AI, .TONE4]
def tBIAU : Syllable := syl [.B, .I, .AU, .TONE3]
def tXIN : Syllable := syl [.X, .I, .EN]
def tKU : Syllable := syl [.K, .U, .TONE4]
def tIN : Syllable := syl [.I, .EN]

def testPairs : List (List Syllable × List Phrase) := [
  ([tGUO], [⟨"國", 1⟩]),
  ([tMIN], [⟨"民", 1⟩]),
  ([tDA], [⟨"大", 1⟩]),
  ([tHUI], [⟨"會", 1⟩]),
  ([tDAI], [⟨"代", 1⟩]),
  ([tBIAU], [⟨"表", 1⟩]),
  ([tGUO, tMIN], [⟨"國民", 200⟩]),
  ([tDA, tHUI], [⟨"大會", 200⟩]),
  ([tDAI, tBIAU], [⟨"代表", 200⟩, ⟨"戴錶", 100⟩]),
  ([tXIN], [⟨"心", 1⟩]),
  ([tKU, tIN], [⟨"庫音", 300⟩]),
  ([tXIN, tKU, tIN], [⟨"新酷音", 200⟩])]

def testDict : Dict := fun syls =>
  ((testPairs.find? (fun pr => pr.1 == syls)).map Prod.snd).getD []

def seq6 : ChineseSequence :=
  ⟨[tGUO, tMIN, tDA, tHUI, tDAI, tBIAU], [], []⟩

def dictAB : Dict := fun syls =>
  if syls == [⟨1⟩] then [⟨"一", 1⟩]
  else if syls == [⟨2⟩] then [⟨"二", 1⟩]
  else []

def seqAB : ChineseSequence := ⟨[⟨1⟩, ⟨2⟩], [], []⟩

def longKey : List Syllable := (List.range 30).map (fun i => ⟨i + 1⟩)

def dict54 : Dict := fun syls =>
  if syls == longKey then [⟨"長", 1⟩]
  else if syls.length == 1 && syls.all (fun s => 1 ≤ s.value && s.value ≤ 54)
  then [⟨"一", 1⟩]
  else []

def seq54 : ChineseSequence :=
  ⟨(List.range 54).map (fun i => ⟨i + 1⟩), [], []⟩

set_option maxRecDepth 4000 in
/-- Claim C1 (status `code_bug`).  The claim states that for both engines
`convert_next(S, k) = convert_next(S, k mod K)` and
`convert_next(S, 0) = convert(S)`.  On the six-syllable sequence of the
engines' own unit tests this theorem shows what the code actually does:

* `ChewingConversionEngine::convert_next` ignores its `next` argument
  entirely, so `convert_next(S, 1) = convert_next(S, 0)` and the result is
  the best cover 國民/大會/代表 — whereas the engine's own test
  `convert_cycle_alternatives` expects the second cover 國/民/大會/代表 at
  `next = 1`, so the test cannot pass on this code;
* `ExperimentalConversionEngine::convert` returns the intervals of the best
  cover in decreasing start order while `convert_next(S, 0)` returns the
  first enumerated cover in increasing order, so
  `convert_next(S, 0) ≠ convert(S)` for that engine. -/
theorem c1_convert_next_cycling_code_bug :
    chewingConvertNext testDict seq6 1 = chewingConvertNext testDict seq6 0 ∧
    chewingConvertNext testDict seq6 1 =
      [⟨0, 2, "國民"⟩, ⟨2, 4, "大會"⟩, ⟨4, 6, "代表"⟩] ∧
    chewingConvertNext testDict seq6 1 ≠
      [⟨0, 1, "國"⟩, ⟨1, 2, "民"⟩, ⟨2, 4, "大會"⟩, ⟨4, 6, "代表"⟩] ∧
    exConvertNext testDict seq6 0 =
      some [⟨0, 2, "國民"⟩, ⟨2, 4, "大會"⟩, ⟨4, 6, "代表"⟩] ∧
    exConvert testDict seq6 =
      some [⟨4, 6, "代表"⟩, ⟨2, 4, "大會"⟩, ⟨0, 2, "國民"⟩] ∧
    exConvertNext testDict seq6 0 ≠ exConvert testDict seq6 :=
  ⟨rfl, by decide, by decide, by decide, by decide, by decide⟩

set_option maxRecDepth 10000 in
/-- Claim C2, counterexample.  The claim asserts that for every non-empty
sequence both engines return a contiguous, gap-free cover of `[0, n)` in
strictly increasing start order.  Two concrete refutations:

* the experimental engine's `convert` (which succeeds, returning `some`)
  lists the cover of `seqAB` in decreasing start order — starts `1, 0`;
* the chewing engine on `seq54` (54 syllables, every single syllable in the
  dictionary, plus one 30-syllable phrase) returns the single interval
  `[53, 54)`: the interval list does not cover `[0, 54)` at all, because
  the length-variance penalty makes every extension of the stored chain
  score negative at position 53, so `highest_score[53]` keeps the default
  empty record and the dynamic program restarts from position 53. -/
theorem c2_convert_coverage_counterexample :
    exConvert dictAB seqAB = some [⟨1, 2, "二"⟩, ⟨0, 1, "一"⟩] ∧
    chewingConvert dict54 seq54 = [⟨53, 54, "一"⟩] ∧
    seq54.syllables.length = 54 :=
  ⟨by decide, by decide, by decide⟩

/-! ## Structure of the returned interval lists (claim C2)

`coversChain l s e` says that `l` is a contiguous chain of non-empty
intervals covering `[s, e)` listed left to right (strictly increasing
starts); `coversChainRev l s e` is the same cover listed right to left
(strictly decreasing starts), which is the order `Path::from_dp`
produces. -/

def coversChain : List Interval → Nat → Nat → Prop
  | [], s, e => s = e
  | iv :: rest, s, e => iv.start = s ∧ s < iv.stop ∧ coversChain rest iv.stop e

def coversChainRev : List Interval → Nat → Nat → Prop
  | [], s, e => s = e
  | iv :: rest, s, e =>
      iv.stop = e ∧ iv.start < iv.stop ∧ coversChainRev rest s iv.start

/-- A list of indices into `ivs` naming a contiguous chain of intervals
from position `s` to position `e`. -/
def chainIdx (ivs : List PossibleInterval) : List Nat → Nat → Nat → Prop
  | [], s, e => s = e
  | i :: rest, s, e =>
      i < ivs.length ∧ (ivs.getD i default).start = s ∧
        s < (ivs.getD i default).stop ∧
        chainIdx ivs rest (ivs.getD i default).stop e

theorem chainIdx_append {ivs : List PossibleInterval} {idx : List Nat}
    {s t : Nat} (hc : chainIdx ivs idx s t) {i : Nat} (hi : i < ivs.length)
    (hstart : (ivs.getD i default).start = t)
    (hlen : t < (ivs.getD i default).stop) :
    chainIdx ivs (idx ++ [i]) s (ivs.getD i default).stop := by
  induction idx generalizing s with
  | nil =>
    cases hc
    exact ⟨hi, hstart, hlen, rfl⟩
  | cons j rest ih =>
    obtain ⟨hj, hjs, hjl, hrest⟩ := hc
    exact ⟨hj, hjs, hjl, ih hrest⟩

theorem chainIdx_coversChain {ivs : List PossibleInterval} {idx : List Nat}
    {s e : Nat} (hc : chainIdx ivs idx s e) :
    coversChain (idx.map fun i => (ivs.getD i default).toInterval) s e := by
  induction idx generalizing s with
  | nil => cases hc; exact rfl
  | cons i rest ih =>
    obtain ⟨hi, hs, hl, hrest⟩ := hc
    exact ⟨hs, hl, ih hrest⟩

theorem chainIdx_le {ivs : List PossibleInterval} {idx : List Nat}
    {s e : Nat} (hc : chainIdx ivs idx s e) : s ≤ e := by
  induction idx generalizing s with
  | nil => cases hc; exact Nat.le_refl _
  | cons i rest ih =>
    obtain ⟨_, _, hl, hrest⟩ := hc
    exact Nat.le_trans (Nat.le_of_lt hl) (ih hrest)

/-! Array access helpers for the `highest_score` / `dp` arrays. -/

theorem arr_getD_setD_ne {α : Type} (a : Array α) (i j : Nat) (v d : α)
    (h : i ≠ j) : (a.setD i v).getD j d = a.getD j d := by
  unfold Array.setD
  split
  · unfold Array.getD
    simp only [Array.size_set]
    split
    · simp only [Array.get_eq_getElem]
      exact Array.getElem_set_ne _ _ _ _ h
    · rfl
  · rfl

theorem arr_getD_setD_self {α : Type} (a : Array α) (i : Nat) (v d : α)
    (h : i < a.size) : (a.setD i v).getD i d = v := by
  unfold Array.setD Array.getD
  rw [dif_pos h]
  simp only [Array.size_set]
  rw [dif_pos h]
  simp

theorem arr_getD_mkArray {α : Type} (n i : Nat) (d : α) :
    ((Array.mkArray n d).getD i d) = d := by
  unfold Array.getD
  split
  · simp
  · rfl

/-! Well-formedness of the chewing engine's candidate intervals: when the
dictionary returns nothing for the empty syllable list, every candidate
interval produced by `find_intervals` is non-empty and ends within the
sequence. -/

theorem chFindBestPhrase_nil {dict : Dict} (h0 : dict [] = []) (b : Nat)
    (sels : List Interval) (brks : List Nat) :
    chFindBestPhrase dict b [] sels brks = none := by
  unfold chFindBestPhrase
  simp [h0]

theorem chFindIntervals_wf {dict : Dict} {seq : ChineseSequence}
    (h0 : dict [] = []) {iv : PossibleInterval}
    (hm : iv ∈ chFindIntervals dict seq) :
    iv.start < iv.stop ∧ iv.stop ≤ seq.syllables.length := by
  unfold chFindIntervals at hm
  simp only [List.mem_flatMap, List.mem_filterMap, List.mem_range,
    Option.map_eq_some'] at hm
  obtain ⟨b, hb, d, hd, p, hp, hiv⟩ := hm
  rcases Nat.eq_zero_or_pos d with hz | hpos
  · subst hz
    have hsl : sylSlice seq b (b + 0) = [] := by
      unfold sylSlice
      simp
    rw [hsl, chFindBestPhrase_nil h0] at hp
    simp at hp
  · subst hiv
    constructor
    · simpa using hpos
    · simp only
      omega

/-- The invariant carried through the `dp_phrasing` loop: every entry of
`highest_score` at position `t` names a contiguous chain of candidate
intervals ending exactly at `t` (the default empty record is the chain from
`t` to `t`). -/
def dpInv (ivs : List PossibleInterval) (hs : Array RecordNode) : Prop :=
  ∀ t : Nat, ∃ s, s ≤ t ∧ chainIdx ivs (hs.getD t default).interval_index s t

theorem dpInv_init (ivs : List PossibleInterval) (len : Nat) :
    dpInv ivs (Array.mkArray (len + 1) default) := by
  intro t
  refine ⟨t, Nat.le_refl _, ?_⟩
  have : ((Array.mkArray (len + 1) (default : RecordNode)).getD t default) =
      default := arr_getD_mkArray _ _ _
  rw [this]
  exact rfl

theorem dpInv_step {ivs : List PossibleInterval} {hs : Array RecordNode}
    (hwf : ∀ j < ivs.length,
      (ivs.getD j default).start < (ivs.getD j default).stop)
    (hinv : dpInv ivs hs) (i : Nat) (hi : i < ivs.length) :
    dpInv ivs (dpStep ivs hs i) := by
  unfold dpStep
  dsimp only
  split
  · intro t
    by_cases ht : (ivs.getD i default).stop = t
    · subst ht
      by_cases hsz : (ivs.getD i default).stop < hs.size
      · rw [arr_getD_setD_self _ _ _ _ hsz]
        obtain ⟨s, hle, hchain⟩ := hinv (ivs.getD i default).start
        refine ⟨s, ?_, ?_⟩
        · exact Nat.le_trans hle (Nat.le_of_lt (hwf i hi))
        · exact chainIdx_append hchain hi rfl (hwf i hi)
      · unfold Array.setD
        rw [dif_neg hsz]
        exact hinv _
    · rw [arr_getD_setD_ne _ _ _ _ _ ht]
      exact hinv t
  · exact hinv

theorem dpInv_fold {ivs : List PossibleInterval}
    (hwf : ∀ j < ivs.length,
      (ivs.getD j default).start < (ivs.getD j default).stop)
    (l : List Nat) (hl : ∀ i ∈ l, i < ivs.length) {hs : Array RecordNode}
    (hinv : dpInv ivs hs) : dpInv ivs (l.foldl (dpStep ivs) hs) := by
  induction l generalizing hs with
  | nil => exact hinv
  | cons i rest ih =>
    exact ih (fun j hj => hl j (List.mem_cons_of_mem _ hj))
      (dpInv_step hwf hinv i (hl i (List.mem_cons_self _ _)))

/-- The chewing engine's `dp_phrasing` output is a contiguous chain of
non-empty intervals ending at `len` (possibly starting after `0`). -/
theorem dpPhrasing_chain {dict : Dict} {seq : ChineseSequence}
    (h0 : dict [] = []) :
    ∃ s, s ≤ seq.syllables.length ∧
      coversChain (chewingConvert dict seq) s seq.syllables.length := by
  unfold chewingConvert chewingConvertNext dpPhrasing
  set ivs := chFindIntervals dict seq with hivs
  set sorted := List.insertionSort (fun a b => a.stop ≤ b.stop) ivs with hsorted
  have hmem : ∀ iv ∈ sorted, iv.start < iv.stop ∧
      iv.stop ≤ seq.syllables.length := by
    intro iv hiv
    have : iv ∈ ivs :=
      (List.perm_insertionSort (fun a b => a.stop ≤ b.stop) ivs).mem_iff.mp hiv
    exact chFindIntervals_wf h0 this
  have hwf : ∀ j < sorted.length,
      (sorted.getD j default).start < (sorted.getD j default).stop := by
    intro j hj
    have : sorted.getD j default ∈ sorted := by
      rw [List.getD_eq_getElem _ _ hj]
      exact List.getElem_mem _
    exact (hmem _ this).1
  have hfold := dpInv_fold hwf (List.range sorted.length)
    (fun i hi => List.mem_range.mp hi)
    (dpInv_init sorted seq.syllables.length)
  obtain ⟨s, hle, hchain⟩ := hfold seq.syllables.length
  exact ⟨s, hle, chainIdx_coversChain hchain⟩

/-! ## Structure of `ExperimentalConversionEngine::convert` output

When every position of the sequence has a single-syllable candidate, the
`find_best_path` array assigns every position `1 ≤ t ≤ n` a node holding a
phrase and a back-pointer `best_source < t`, and `Path::from_dp` therefore
walks back to `0`, emitting a contiguous cover of `[0, n)` in strictly
decreasing start order. -/

def nodeOk (dp : Array Node) (t : Nat) : Prop :=
  (dp.getD t default).best_phrase.isSome = true ∧
    (dp.getD t default).best_source < t

theorem exDpInner_size {dict : Dict} {seq : ChineseSequence} {t : Nat}
    (dp : Array Node) (s : Nat) :
    (exDpInner dict seq t dp s).size = dp.size := by
  unfold exDpInner
  split
  · rfl
  · dsimp only
    split
    · exact Array.size_setD _ _ _
    · rfl

theorem exDpInner_fold_size {dict : Dict} {seq : ChineseSequence} {t : Nat}
    (L : List Nat) (dp : Array Node) :
    (L.foldl (exDpInner dict seq t) dp).size = dp.size := by
  induction L generalizing dp with
  | nil => rfl
  | cons s L ih => rw [List.foldl_cons, ih, exDpInner_size]

theorem exDpInner_getD_ne {dict : Dict} {seq : ChineseSequence} {t : Nat}
    (dp : Array Node) (s j : Nat) (hj : j ≠ t) :
    (exDpInner dict seq t dp s).getD j default = dp.getD j default := by
  unfold exDpInner
  split
  · rfl
  · dsimp only
    split
    · exact arr_getD_setD_ne _ _ _ _ _ fun h => hj h.symm
    · rfl

theorem exDpInner_fold_getD_ne {dict : Dict} {seq : ChineseSequence}
    {t : Nat} (L : List Nat) (dp : Array Node) (j : Nat) (hj : j ≠ t) :
    (L.foldl (exDpInner dict seq t) dp).getD j default = dp.getD j default := by
  induction L generalizing dp with
  | nil => rfl
  | cons s L ih => rw [List.foldl_cons, ih, exDpInner_getD_ne _ _ _ hj]

theorem exDpInner_nodeOk {dict : Dict} {seq : ChineseSequence} {t : Nat}
    (dp : Array Node) (s : Nat) (hs : s < t) (h : nodeOk dp t) :
    nodeOk (exDpInner dict seq t dp s) t := by
  unfold exDpInner
  split
  · exact h
  · dsimp only
    split
    · rename_i hlt
      by_cases hsz : t < dp.size
      · constructor <;> rw [arr_getD_setD_self _ _ _ _ hsz]
        · rfl
        · exact hs
      · unfold Array.setD
        rw [dif_neg hsz]
        exact h
    · exact h

theorem exDpInner_fold_nodeOk {dict : Dict} {seq : ChineseSequence} {t : Nat}
    (L : List Nat) (hL : ∀ s ∈ L, s < t) (dp : Array Node)
    (h : nodeOk dp t) : nodeOk (L.foldl (exDpInner dict seq t) dp) t := by
  induction L generalizing dp with
  | nil => exact h
  | cons s L ih =>
    exact ih (fun x hx => hL x (List.mem_cons_of_mem _ hx)) _
      (exDpInner_nodeOk _ _ (hL s (List.mem_cons_self _ _)) h)

theorem exDpInner_critical {dict : Dict} {seq : ChineseSequence} {t : Nat}
    (dp : Array Node) (s : Nat) (hs : s < t) (hsz : t < dp.size)
    (hQ : nodeOk dp t ∨ dp.getD t default = default)
    (hfind : (exFindBestPhrase dict s (sylSlice seq s t) seq.selections
      seq.breaks).isSome = true) :
    nodeOk (exDpInner dict seq t dp s) t := by
  unfold exDpInner
  split
  · rename_i hnone
    rw [hnone] at hfind
    simp at hfind
  · rename_i p hp
    dsimp only
    have hscore : 1 ≤ calculateScore (dp.getD s default) s t p.freq := by
      unfold calculateScore
      have h1 : 1 ≤ t - s := by omega
      have h2 : 1 ≤ Nat.max (p.freq / (if t - s == 1 then 512 else 1)) 1 :=
        Nat.le_max_right _ _
      calc 1 = 1 * 1 := rfl
        _ ≤ (t - s) * Nat.max (p.freq / (if t - s == 1 then 512 else 1)) 1 :=
          Nat.mul_le_mul h1 h2
        _ ≤ _ := Nat.le_add_left _ _
    by_cases hc : (dp.getD t default).best_score <
        calculateScore (dp.getD s default) s t p.freq
    · rw [if_pos hc]
      constructor <;> rw [arr_getD_setD_self _ _ _ _ hsz]
      · rfl
      · exact hs
    · rw [if_neg hc]
      rcases hQ with h | h
      · exact h
      · exfalso
        rw [h] at hc
        have : (default : Node).best_score = 0 := rfl
        omega

theorem exDpInner_Q {dict : Dict} {seq : ChineseSequence} {t : Nat}
    (dp : Array Node) (s : Nat) (hs : s < t)
    (hQ : nodeOk dp t ∨ dp.getD t default = default) :
    nodeOk (exDpInner dict seq t dp s) t ∨
      (exDpInner dict seq t dp s).getD t default = default := by
  unfold exDpInner
  split
  · exact hQ
  · rename_i p hp
    dsimp only
    by_cases hc : (dp.getD t default).best_score <
        calculateScore (dp.getD s default) s t p.freq
    · rw [if_pos hc]
      by_cases hsz : t < dp.size
      · left
        constructor <;> rw [arr_getD_setD_self _ _ _ _ hsz]
        · rfl
        · exact hs
      · unfold Array.setD
        rw [dif_neg hsz]
        exact hQ
    · rw [if_neg hc]
      exact hQ

theorem exDpInner_fold_critical {dict : Dict} {seq : ChineseSequence}
    {t : Nat} (L : List Nat) (hL : ∀ s ∈ L, s < t) (hmem : t - 1 ∈ L)
    (_ht : 1 ≤ t) (dp : Array Node) (hsz : t < dp.size)
    (hQ : nodeOk dp t ∨ dp.getD t default = default)
    (hfind : (exFindBestPhrase dict (t - 1) (sylSlice seq (t - 1) t)
      seq.selections seq.breaks).isSome = true) :
    nodeOk (L.foldl (exDpInner dict seq t) dp) t := by
  induction L generalizing dp with
  | nil => cases hmem
  | cons s L ih =>
    rw [List.foldl_cons]
    by_cases hst : s = t - 1
    · subst hst
      exact exDpInner_fold_nodeOk L
        (fun x hx => hL x (List.mem_cons_of_mem _ hx)) _
        (exDpInner_critical dp _ (hL _ (List.mem_cons_self _ _)) hsz hQ hfind)
    · have hmem' : t - 1 ∈ L := by
        cases List.mem_cons.mp hmem with
        | inl h => exact absurd h.symm hst
        | inr h => exact h
      exact ih (fun x hx => hL x (List.mem_cons_of_mem _ hx)) hmem' _
        (by rw [exDpInner_size]; exact hsz)
        (exDpInner_Q dp s (hL s (List.mem_cons_self _ _)) hQ)

/-- The invariant of the `for t in source..=target` loop of
`find_best_path` with `source = 0`: after processing positions `< m`,
every `1 ≤ t < m` has a valid node and every position `≥ m` still holds the
default node. -/
def exOuterInv (n m : Nat) (dp : Array Node) : Prop :=
  dp.size = n + 1 ∧ (∀ t, 1 ≤ t → t < m → nodeOk dp t) ∧
    ∀ t, m ≤ t → dp.getD t default = default

theorem exDp_nodeOk {dict : Dict} {seq : ChineseSequence}
    (hsing : ∀ i, i < seq.syllables.length →
      (exFindBestPhrase dict i (sylSlice seq i (i + 1)) seq.selections
        seq.breaks).isSome = true) :
    ∀ t, 1 ≤ t → t ≤ seq.syllables.length →
      nodeOk (exDp dict seq 0 seq.syllables.length) t := by
  set n := seq.syllables.length with hn
  have key : ∀ m, m ≤ n + 1 →
      exOuterInv n m ((List.range' 0 m).foldl
        (fun dp t => (List.range' 0 (t - 0)).foldl (exDpInner dict seq t) dp)
        (Array.mkArray (n + 1) default)) := by
    intro m
    induction m with
    | zero =>
      intro _
      refine ⟨by simp, fun t h1 h2 => absurd h2 (by omega), fun t _ => ?_⟩
      exact arr_getD_mkArray _ _ _
    | succ m ih =>
      intro hm
      have hm' : m ≤ n + 1 := Nat.le_of_succ_le hm
      obtain ⟨hsz, hok, hdef⟩ := ih hm'
      have hconcat : List.range' 0 (m + 1) = List.range' 0 m ++ [m] := by
        have := @List.range'_concat 1 0 m
        simpa using this
      rw [hconcat, List.foldl_append]
      set dp0 := (List.range' 0 m).foldl
        (fun dp t => (List.range' 0 (t - 0)).foldl (exDpInner dict seq t) dp)
        (Array.mkArray (n + 1) default) with hdp0
      simp only [List.foldl_cons, List.foldl_nil]
      refine ⟨by rw [exDpInner_fold_size]; exact hsz, ?_, ?_⟩
      · intro t h1 h2
        by_cases htm : t = m
        · subst htm
          refine exDpInner_fold_critical _ ?_ ?_ h1 _ ?_ ?_ ?_
          · intro s hs
            rw [List.mem_range'_1] at hs
            omega
          · rw [List.mem_range'_1]
            omega
          · rw [hsz]
            omega
          · right
            exact hdef t (Nat.le_refl _)
          · have := hsing (t - 1) (by omega)
            have harg : t - 1 + 1 = t := by omega
            rw [harg] at this
            exact this
        · have ht : t < m := by omega
          unfold nodeOk
          rw [exDpInner_fold_getD_ne _ _ _ htm]
          exact hok t h1 ht
      · intro t hmt
        rw [exDpInner_fold_getD_ne _ _ _ (by omega)]
        exact hdef t (by omega)
  intro t h1 h2
  have := key (n + 1) (Nat.le_refl _)
  obtain ⟨_, hok, _⟩ := this
  have : nodeOk ((List.range' 0 (n + 1)).foldl
      (fun dp t => (List.range' 0 (t - 0)).foldl (exDpInner dict seq t) dp)
      (Array.mkArray (n + 1) default)) t := hok t h1 (by omega)
  unfold exDp
  have harg : n + 1 - 0 = n + 1 := by omega
  rw [harg]
  exact this

/-- The back-pointer walk of `Path::from_dp`: starting at a position
`1 ≤ e` whose prefix of nodes is all valid, it terminates with a path whose
intervals (appended after `acc`) cover `[0, e)` in strictly decreasing
start order. -/
theorem fromDpGo_chain {dp : Array Node} {n : Nat}
    (hok : ∀ t, 1 ≤ t → t ≤ n → nodeOk dp t) :
    ∀ fuel e score acc, 1 ≤ e → e ≤ n → e ≤ fuel →
      ∃ sc l, fromDpGo dp fuel (dp.getD e default).best_source e score acc =
          some ⟨sc, acc ++ l⟩ ∧ coversChainRev l 0 e := by
  intro fuel
  induction fuel with
  | zero =>
    intro e _ _ h1 _ hf
    omega
  | succ fuel ih =>
    intro e score acc h1 h2 hf
    obtain ⟨hsome, hsrc⟩ := hok e h1 h2
    unfold fromDpGo
    obtain ⟨ph, hph⟩ := Option.isSome_iff_exists.mp hsome
    rw [hph]
    dsimp only
    by_cases hz : (dp.getD e default).best_source = 0
    · rw [hz]
      refine ⟨score + (dp.getD e default).best_score, [⟨0, e, ph.phrase⟩],
        by simp, rfl, ?_, rfl⟩
      show (0 : Nat) < e
      omega
    · rw [if_neg (by simpa using hz)]
      set st := (dp.getD e default).best_source with hst
      obtain ⟨sc, l, hrec, hchain⟩ := ih st _
        (acc ++ [⟨st, e, ph.phrase⟩]) (by omega) (by omega) (by omega)
      refine ⟨sc, ⟨st, e, ph.phrase⟩ :: l, ?_, rfl, ?_, hchain⟩
      · rw [hrec]
        simp
      · show st < e
        omega

/-- The amended claim C2.  For every sequence, over a dictionary returning
no phrase for the empty syllable list:

* the chewing engine returns a contiguous chain of non-empty intervals in
  strictly increasing start order, ending at `n`, but possibly starting
  after position `0` (full coverage of `[0, n)` can fail, see the
  counterexample);
* the experimental engine's `convert`, whenever every position has a
  single-syllable candidate, succeeds and returns a contiguous, gap-free
  cover of exactly `[0, n)` — listed in strictly *decreasing* start
  order. -/
theorem c2_convert_chain_structure (dict : Dict) (seq : ChineseSequence)
    (h0 : dict [] = [])
    (hsing : ∀ i, i < seq.syllables.length →
      (exFindBestPhrase dict i (sylSlice seq i (i + 1)) seq.selections
        seq.breaks).isSome = true) :
    (∃ s, s ≤ seq.syllables.length ∧
      coversChain (chewingConvert dict seq) s seq.syllables.length) ∧
    (1 ≤ seq.syllables.length →
      ∃ l, exConvert dict seq = some l ∧
        coversChainRev l 0 seq.syllables.length) := by
  constructor
  · exact dpPhrasing_chain h0
  · intro hn
    set n := seq.syllables.length with hdefn
    have hok := exDp_nodeOk hsing
    have hne : seq.syllables.isEmpty = false := by
      cases hsyl : seq.syllables with
      | nil => rw [hsyl] at hdefn; simp at hdefn; omega
      | cons a l => rfl
    obtain ⟨sc, l, hgo, hchain⟩ := fromDpGo_chain hok (n + 1) n 0 [] hn
      (Nat.le_refl _) (by omega)
    refine ⟨l, ?_, hchain⟩
    unfold exConvert
    rw [hne]
    simp only [Bool.false_eq_true, if_false]
    unfold fromDp
    rw [← hdefn, hgo]
    simp

/-- Witness for `c2_convert_chain_structure` at the concrete two-syllable
input `dictAB`/`seqAB`. -/
theorem c2_convert_chain_structure_witness :
    (∃ s, s ≤ seqAB.syllables.length ∧
      coversChain (chewingConvert dictAB seqAB) s seqAB.syllables.length) ∧
    (∃ l, exConvert dictAB seqAB = some l ∧
      coversChainRev l 0 seqAB.syllables.length) :=
  ⟨(c2_convert_chain_structure dictAB seqAB (by decide)
      (by decide)).1,
    (c2_convert_chain_structure dictAB seqAB (by decide)
      (by decide)).2 (by decide)⟩

/-! ## Layered and chained dictionaries
(`src/dictionary/layered.rs`, `src/dictionary.rs`)

Both lookup functions are embedded over the per-layer lookup results: the
element `results[i]` is what dictionary layer `i` returns for the queried
syllables, and `blocked` is the union of the block lists
(`is_blocked`). -/

/-- One step of `LayeredDictionary::lookup_phrase`'s merge loop: find the
first phrase with the same text and overwrite it with the upper layer's
phrase (`*ph = phrase`), otherwise push at the end. -/
def replace_or_push : List Phrase → Phrase → List Phrase
  | [], p => [p]
  | q :: rest, p =>
    if q.phrase == p.phrase then p :: rest else q :: replace_or_push rest p

/-- The working list of `LayeredDictionary::lookup_phrase` before the block
list filter: the base layer's result merged with each upper layer in
order. -/
def layeredMerged (base : List Phrase) (layers : List (List Phrase)) :
    List Phrase :=
  layers.foldl (fun acc layer => layer.foldl replace_or_push acc) base

/-- `LayeredDictionary::lookup_phrase`. -/
def layeredLookup (results : List (List Phrase)) (blocked : String → Bool) :
    List Phrase :=
  match results with
  | [] => []
  | base :: layers =>
    (layeredMerged base layers).filter fun p => !blocked p.phrase

/-- `IndexMap::insert` as used by `collect::<IndexMap<String, u32>>` in
`ChainedDictionary::lookup_phrase`: overwrite in place, else append. -/
def indexMapInsert (m : List (String × Nat)) (k : String) (v : Nat) :
    List (String × Nat) :=
  match m with
  | [] => [(k, v)]
  | kv :: rest =>
    if kv.1 == k then (k, v) :: rest
    else kv :: indexMapInsert rest k v

/-- Collecting one layer's phrases into an `IndexMap<String, u32>`. -/
def collectIndexMap (l : List Phrase) : List (String × Nat) :=
  l.foldl (fun m p => indexMapInsert m p.phrase p.freq) []

/-- The body of `ChainedDictionary`'s `reduce` step:
`let entry = accum.entry(phrase).or_default(); *entry = *entry.max(&mut freq)`. -/
def entryMax (acc : List (String × Nat)) (k : String) (v : Nat) :
    List (String × Nat) :=
  match acc with
  | [] => [(k, Nat.max 0 v)]
  | kv :: rest =>
    if kv.1 == k then (k, Nat.max kv.2 v) :: rest
    else kv :: entryMax rest k v

/-- `ChainedDictionary::lookup_phrase`. -/
def chainedLookup (results : List (List Phrase)) (blocked : String → Bool) :
    List Phrase :=
  match results.map collectIndexMap with
  | [] => []
  | m0 :: rest =>
    (((rest.foldl (fun accum second =>
        second.foldl (fun acc kv => entryMax acc kv.1 kv.2) accum) m0)).filter
      (fun kv => !blocked kv.1)).map fun kv => ⟨kv.1, kv.2⟩

/-- Claim C3, counterexample.  With a lower layer returning (冊, 200) and an
upper layer returning (冊, 100), `ChainedDictionary::lookup_phrase` keeps
frequency `max(200, 100) = 200`, not the upper layer's `100` as the claim
requires (`*entry = *entry.max(&mut freq)` in the source). -/
theorem c3_chained_lookup_max_freq_counterexample :
    chainedLookup [[⟨"冊", 200⟩], [⟨"冊", 100⟩]] (fun _ => false)
      = [⟨"冊", 200⟩] ∧
    Phrase.freq ⟨"冊", 200⟩ ≠ 100 := by
  constructor
  · decide
  · decide

/-! Decomposition lemmas for the layered merge.  `tpFree t l` says no
phrase of `l` has text `t`. -/

def tpFree (t : String) (l : List Phrase) : Prop :=
  ∀ x ∈ l, (x.phrase == t) = false

theorem tpFree_nil (t : String) : tpFree t [] := fun x hx => absurd hx (by simp)

theorem replace_or_push_tpFree {t : String} {l : List Phrase} {p : Phrase}
    (hl : tpFree t l) (hp : (p.phrase == t) = false) :
    tpFree t (replace_or_push l p) := by
  induction l with
  | nil =>
    intro x hx
    rw [replace_or_push] at hx
    simp at hx
    subst hx
    exact hp
  | cons q rest ih =>
    intro x hx
    rw [replace_or_push] at hx
    split at hx
    · rcases List.mem_cons.mp hx with h | h
      · subst h; exact hp
      · exact hl x (List.mem_cons_of_mem _ h)
    · rcases List.mem_cons.mp hx with h | h
      · subst h; exact hl x (List.mem_cons_self _ _)
      · exact ih (fun y hy => hl y (List.mem_cons_of_mem _ hy)) x h

theorem replace_or_push_decomp {t : String} {f : Nat} {p : Phrase}
    (hp : (p.phrase == t) = false) :
    ∀ a1 a2 : List Phrase, tpFree t a1 → tpFree t a2 →
      ∃ b1 b2, replace_or_push (a1 ++ ⟨t, f⟩ :: a2) p = b1 ++ ⟨t, f⟩ :: b2 ∧
        tpFree t b1 ∧ tpFree t b2 ∧ b1.length = a1.length := by
  intro a1
  induction a1 with
  | nil =>
    intro a2 _ h2
    refine ⟨[], replace_or_push a2 p, ?_, tpFree_nil t, replace_or_push_tpFree h2 hp, rfl⟩
    rw [List.nil_append, replace_or_push]
    have hne : p.phrase ≠ t := by
      intro he
      rw [he] at hp
      simp at hp
    rw [if_neg (by simp only [beq_iff_eq]; exact fun he => hne he.symm)]
    rfl
  | cons q a1 ih =>
    intro a2 h1 h2
    have hq : (q.phrase == t) = false := h1 q (List.mem_cons_self _ _)
    have h1' : tpFree t a1 := fun y hy => h1 y (List.mem_cons_of_mem _ hy)
    rw [List.cons_append, replace_or_push]
    by_cases hc : (q.phrase == p.phrase) = true
    · rw [if_pos hc]
      refine ⟨p :: a1, a2, ?_, ?_, h2, by simp⟩
      · rfl
      · intro x hx
        rcases List.mem_cons.mp hx with h | h
        · subst h; exact hp
        · exact h1' x h
    · rw [if_neg hc]
      obtain ⟨b1, b2, heq, hb1, hb2, hlen⟩ := ih a2 h1' h2
      refine ⟨q :: b1, b2, ?_, ?_, hb2, by simp [hlen]⟩
      · rw [heq]; rfl
      · intro x hx
        rcases List.mem_cons.mp hx with h | h
        · subst h; exact hq
        · exact hb1 x h

theorem replace_or_push_hit {t : String} {f f2 : Nat} :
    ∀ a1 a2 : List Phrase, tpFree t a1 →
      replace_or_push (a1 ++ ⟨t, f⟩ :: a2) ⟨t, f2⟩ = a1 ++ ⟨t, f2⟩ :: a2 := by
  intro a1
  induction a1 with
  | nil =>
    intro a2 _
    rw [List.nil_append, replace_or_push]
    rw [if_pos (by simp)]
    rfl
  | cons q a1 ih =>
    intro a2 h1
    have hq : (q.phrase == t) = false := h1 q (List.mem_cons_self _ _)
    rw [List.cons_append, replace_or_push]
    rw [if_neg (by simpa using hq)]
    rw [ih a2 fun y hy => h1 y (List.mem_cons_of_mem _ hy)]
    rfl

theorem foldl_rop_decomp {t : String} {f : Nat} (u : List Phrase)
    (hu : tpFree t u) :
    ∀ a1 a2 : List Phrase, tpFree t a1 → tpFree t a2 →
      ∃ b1 b2, u.foldl replace_or_push (a1 ++ ⟨t, f⟩ :: a2) =
          b1 ++ ⟨t, f⟩ :: b2 ∧
        tpFree t b1 ∧ tpFree t b2 ∧ b1.length = a1.length := by
  induction u with
  | nil =>
    intro a1 a2 h1 h2
    exact ⟨a1, a2, rfl, h1, h2, rfl⟩
  | cons p u ih =>
    intro a1 a2 h1 h2
    have hp : (p.phrase == t) = false := hu p (List.mem_cons_self _ _)
    obtain ⟨b1, b2, heq, hb1, hb2, hlen⟩ := replace_or_push_decomp hp a1 a2 h1 h2
    rw [List.foldl_cons, heq]
    obtain ⟨c1, c2, heq2, hc1, hc2, hlen2⟩ :=
      ih (fun y hy => hu y (List.mem_cons_of_mem _ hy)) b1 b2 hb1 hb2
    exact ⟨c1, c2, heq2, hc1, hc2, by omega⟩

theorem filter_eq_singleton_split {α : Type} (p : α → Bool) (l : List α)
    (a : α) (h : l.filter p = [a]) :
    ∃ l1 l2, l = l1 ++ a :: l2 ∧ (∀ x ∈ l1, p x = false) ∧
      (∀ x ∈ l2, p x = false) ∧ p a = true := by
  induction l with
  | nil => simp at h
  | cons x xs ih =>
    by_cases hx : p x = true
    · rw [List.filter_cons_of_pos hx] at h
      have hxa : x = a := by
        have := List.head_eq_of_cons_eq h
        exact this
      have hxs : xs.filter p = [] := List.tail_eq_of_cons_eq h
      subst hxa
      refine ⟨[], xs, rfl, fun y hy => absurd hy (by simp), ?_, hx⟩
      intro y hy
      rw [List.filter_eq_nil_iff] at hxs
      simpa using hxs y hy
    · rw [List.filter_cons_of_neg (by simpa using hx)] at h
      obtain ⟨l1, l2, heq, h1, h2, ha⟩ := ih h
      refine ⟨x :: l1, l2, by rw [heq]; rfl, ?_, h2, ha⟩
      intro y hy
      rcases List.mem_cons.mp hy with hc | hc
      · subst hc; simpa using hx
      · exact h1 y hc

theorem filter_decomp {t : String} {f : Nat} (a1 a2 : List Phrase)
    (h1 : tpFree t a1) (h2 : tpFree t a2) :
    (a1 ++ ⟨t, f⟩ :: a2).filter (fun p => p.phrase == t) = [⟨t, f⟩] := by
  rw [List.filter_append, List.filter_cons]
  have hf1 : a1.filter (fun p => p.phrase == t) = [] := by
    rw [List.filter_eq_nil_iff]
    intro x hx
    simp [h1 x hx]
  have hf2 : a2.filter (fun p => p.phrase == t) = [] := by
    rw [List.filter_eq_nil_iff]
    intro x hx
    simp [h2 x hx]
  rw [hf1, hf2]
  simp

theorem findIdx_go_decomp {t : String} {f : Nat} :
    ∀ (a1 a2 : List Phrase) (i : Nat), tpFree t a1 →
      List.findIdx? (fun p => p.phrase == t) (a1 ++ ⟨t, f⟩ :: a2) i =
        some (i + a1.length) := by
  intro a1
  induction a1 with
  | nil =>
    intro a2 i _
    rw [List.nil_append, List.findIdx?_cons]
    simp
  | cons q a1 ih =>
    intro a2 i h1
    rw [List.cons_append, List.findIdx?_cons]
    rw [if_neg (by simpa using h1 q (List.mem_cons_self _ _))]
    rw [ih a2 (i + 1) fun y hy => h1 y (List.mem_cons_of_mem _ hy)]
    have : i + 1 + a1.length = i + (q :: a1).length := by
      simp
      omega
    rw [this]

theorem findIdx_decomp {t : String} {f : Nat} (a1 a2 : List Phrase)
    (h1 : tpFree t a1) :
    (a1 ++ ⟨t, f⟩ :: a2).findIdx? (fun p => p.phrase == t) =
      some a1.length := by
  have := findIdx_go_decomp (f := f) a1 a2 0 h1
  simpa using this

/-- The amended claim C3.  If the base (lower) layer's result mentions text
`t` exactly once with frequency `f1`, an upper layer's result mentions `t`
exactly once with frequency `f2`, and `t` is not blocked, then
`LayeredDictionary::lookup_phrase` returns exactly one entry for `t`, that
entry carries the upper layer's frequency `f2`, and in the merged working
list the entry sits at the very index the base layer gave it (block-list
filtering then only removes other, blocked entries, preserving relative
order).  `ChainedDictionary::lookup_phrase` instead keeps
`max(f1, f2)` — see the counterexample. -/
theorem c3_layered_lookup_upper_precedence
    (base upper : List Phrase) (blocked : String → Bool) (t : String)
    (f1 f2 : Nat)
    (hbase : base.filter (fun p => p.phrase == t) = [⟨t, f1⟩])
    (hupper : upper.filter (fun p => p.phrase == t) = [⟨t, f2⟩])
    (hblk : blocked t = false) :
    (layeredLookup [base, upper] blocked).filter (fun p => p.phrase == t)
        = [⟨t, f2⟩] ∧
    (layeredMerged base [upper]).findIdx? (fun p => p.phrase == t)
        = base.findIdx? (fun p => p.phrase == t) := by
  obtain ⟨b1, b2, hbeq, hb1, hb2, _⟩ := filter_eq_singleton_split _ _ _ hbase
  obtain ⟨u1, u2, hueq, hu1, hu2, _⟩ := filter_eq_singleton_split _ _ _ hupper
  have hmerged : ∃ d1 d2, layeredMerged base [upper] = d1 ++ ⟨t, f2⟩ :: d2 ∧
      tpFree t d1 ∧ tpFree t d2 ∧ d1.length = b1.length := by
    unfold layeredMerged
    rw [List.foldl_cons, List.foldl_nil, hbeq, hueq, List.foldl_append]
    obtain ⟨c1, c2, hceq, hc1, hc2, hclen⟩ := foldl_rop_decomp u1 hu1 b1 b2 hb1 hb2
    rw [hceq, List.foldl_cons, replace_or_push_hit c1 c2 hc1]
    obtain ⟨d1, d2, hdeq, hd1, hd2, hdlen⟩ := foldl_rop_decomp u2 hu2 c1 c2 hc1 hc2
    exact ⟨d1, d2, hdeq, hd1, hd2, by omega⟩
  obtain ⟨d1, d2, hdeq, hd1, hd2, hdlen⟩ := hmerged
  constructor
  · have hlay : layeredLookup [base, upper] blocked =
        (layeredMerged base [upper]).filter fun p => !blocked p.phrase := rfl
    rw [hlay, hdeq, List.filter_append, List.filter_cons]
    have hnb : (!blocked (Phrase.phrase ⟨t, f2⟩)) = true := by
      simp only
      rw [hblk]
      rfl
    rw [if_pos hnb]
    exact filter_decomp _ _
      (fun x hx => hd1 x (List.mem_of_mem_filter hx))
      (fun x hx => hd2 x (List.mem_of_mem_filter hx))
  · rw [hdeq, hbeq, findIdx_decomp d1 d2 hd1, findIdx_decomp b1 b2 hb1, hdlen]

/-- Witness for `c3_layered_lookup_upper_precedence` at a concrete two-layer
stack. -/
theorem c3_layered_lookup_upper_precedence_witness :
    (layeredLookup [[⟨"甲", 5⟩, ⟨"冊", 200⟩], [⟨"冊", 100⟩, ⟨"乙", 7⟩]]
        (fun _ => false)).filter (fun p => p.phrase == "冊") = [⟨"冊", 100⟩] ∧
    (layeredMerged [⟨"甲", 5⟩, ⟨"冊", 200⟩] [[⟨"冊", 100⟩, ⟨"乙", 7⟩]]).findIdx?
        (fun p => p.phrase == "冊") =
      ([⟨"甲", 5⟩, ⟨"冊", 200⟩] : List Phrase).findIdx?
        (fun p => p.phrase == "冊") :=
  c3_layered_lookup_upper_precedence [⟨"甲", 5⟩, ⟨"冊", 200⟩]
    [⟨"冊", 100⟩, ⟨"乙", 7⟩] (fun _ => false) "冊" 200 100
    (by decide) (by decide) rfl

end Chewing

/-! ## Claims C4 and C10: the 16-bit syllable round trip -/

/-- Claim C4, counterexample.  The claim quantifies over every combination
of at most one Bopomofo per kind and over every legal 16-bit value — which
includes the empty combination and the value `0`.  Encoding the empty
syllable trips the `debug_assert!(!self.is_empty())` in
`Syllable::to_u16`, so `decode(encode(s))` is not defined at `s = empty`,
and `encode(decode(0))` is not defined at the legal value `x = 0`. -/
theorem c4_syllable_roundtrip_empty_counterexample :
    Syllable.of_parts none none none none = Syllable.new ∧
    Syllable.to_u16_checked Syllable.new = none ∧
    Syllable.legal_u16 0 ∧
    Syllable.try_from_u16 0 = .ok Syllable.new :=
  ⟨rfl, rfl, by decide, rfl⟩

/-- The amended claim C4.  For every *non-empty* combination of at most one
Bopomofo per kind, encoding succeeds and decoding the encoding yields the
same syllable; and for every *non-zero* legal 16-bit value, decoding
followed by encoding yields the value back.  (The `TryFrom<u16>`
implementation performs no validation, it wraps the raw value.) -/
theorem c4_syllable_u16_roundtrip :
    (∀ i m r t : Option Bopomofo,
      (∀ b ∈ i, b.kind = .initial) → (∀ b ∈ m, b.kind = .medial) →
      (∀ b ∈ r, b.kind = .rime) → (∀ b ∈ t, b.kind = .tone) →
      (Syllable.of_parts i m r t).is_empty = false →
      (Syllable.of_parts i m r t).to_u16_checked =
          some (Syllable.of_parts i m r t).to_u16 ∧
        Syllable.try_from_u16 (Syllable.of_parts i m r t).to_u16 =
          .ok (Syllable.of_parts i m r t)) ∧
    (∀ x : Nat, Syllable.legal_u16 x → x ≠ 0 →
      ∃ s, Syllable.try_from_u16 x = .ok s ∧ s.to_u16_checked = some x) := by
  constructor
  · intro i m r t _ _ _ _ hne
    constructor
    · unfold Syllable.to_u16_checked
      rw [hne]
      rfl
    · rfl
  · intro x _ hx
    refine ⟨⟨x⟩, rfl, ?_⟩
    unfold Syllable.to_u16_checked
    have : Syllable.is_empty ⟨x⟩ = false := by
      unfold Syllable.is_empty
      simpa using hx
    rw [this]
    rfl

/-- Witness for `c4_syllable_u16_roundtrip`: the syllable ㄅ (initial `B`
alone, packed value `512`) and the legal non-zero value `512`. -/
theorem c4_syllable_u16_roundtrip_witness :
    ((Syllable.of_parts (some .B) none none none).to_u16_checked =
        some (Syllable.of_parts (some .B) none none none).to_u16 ∧
      Syllable.try_from_u16 (Syllable.of_parts (some .B) none none none).to_u16
        = .ok (Syllable.of_parts (some .B) none none none)) ∧
    ∃ s, Syllable.try_from_u16 512 = .ok s ∧ s.to_u16_checked = some 512 :=
  ⟨c4_syllable_u16_roundtrip.1 (some .B) none none none (by decide)
      (by decide) (by decide) (by decide) (by decide),
    c4_syllable_u16_roundtrip.2 512 (by decide) (by decide)⟩

/-- Claim C10 (status `confirmed`): `Syllable::to_u16` (and hence
`to_le_bytes`) asserts that the syllable is non-empty — encoding the empty
syllable fails the debug assertion even though the empty syllable is a
legal value — and every non-empty syllable encodes, without failing, to its
non-zero wrapped 16-bit value. -/
theorem c10_to_u16_nonempty_precondition :
    (∀ s : Syllable, s.is_empty = true → s.to_u16_checked = none) ∧
    (∀ s : Syllable, s.is_empty = false →
      s.to_u16_checked = some s.to_u16 ∧ s.to_u16 ≠ 0) := by
  constructor
  · intro s h
    unfold Syllable.to_u16_checked
    rw [h]
    rfl
  · intro s h
    constructor
    · unfold Syllable.to_u16_checked
      rw [h]
      rfl
    · unfold Syllable.is_empty at h
      unfold Syllable.to_u16
      simpa using h

/-- Witness for `c10_to_u16_nonempty_precondition` at the empty syllable
and at ㄅ (value 512). -/
theorem c10_to_u16_nonempty_precondition_witness :
    Syllable.to_u16_checked Syllable.new = none ∧
    ((⟨512⟩ : Syllable).to_u16_checked = some (⟨512⟩ : Syllable).to_u16 ∧
      (⟨512⟩ : Syllable).to_u16 ≠ 0) :=
  ⟨c10_to_u16_nonempty_precondition.1 Syllable.new (by decide),
    c10_to_u16_nonempty_precondition.2 ⟨512⟩ (by decide)⟩

/-! ## Claim C5: the SQLite user dictionary's lookup order
(`src/dictionary/sqlite.rs`)

`SqliteDictionary::lookup_phrase` runs

  SELECT phrase, freq FROM dictionary_v1
    LEFT JOIN userphrase_v2 ON userphrase_id = id
    WHERE syllables = ?  ORDER BY sort_id ASC, freq DESC, phrase DESC

The embedding keeps, per row of `dictionary_v1`, the columns this query
reads.  SQLite's documented semantics give the comparator: in ascending
order NULL values sort *before* all non-NULL values, and TEXT values under
the default BINARY collation compare by `memcmp` on their UTF-8 bytes —
which coincides with code-point order, modelled here on the char list. -/

structure DictRow where
  syllables : List Nat
  phrase : String
  freq : Nat
  sort_id : Option Nat
  userphrase_id : Option Nat
deriving DecidableEq, Repr

/-- SQLite ascending comparison of a possibly-NULL integer column: NULL
sorts before every value. -/
def sortIdLtb : Option Nat → Option Nat → Bool
  | none, some _ => true
  | some x, some y => decide (x < y)
  | _, _ => false

/-- Strict byte-wise (code-point) comparison of text, SQLite's BINARY
collation. -/
def charListLt : List Char → List Char → Bool
  | [], [] => false
  | [], _ :: _ => true
  | _ :: _, [] => false
  | a :: as, b :: bs =>
    if a.toNat < b.toNat then true
    else if b.toNat < a.toNat then false
    else charListLt as bs

def textLt (a b : String) : Bool := charListLt a.toList b.toList

/-- The row ordering of the `ORDER BY sort_id ASC, freq DESC, phrase DESC`
clause: `rowLe r1 r2` holds when `r1` may come before `r2`. -/
def rowLe (r1 r2 : DictRow) : Prop :=
  sortIdLtb r1.sort_id r2.sort_id = true ∨
    (r1.sort_id = r2.sort_id ∧
      (r2.freq < r1.freq ∨
        (r1.freq = r2.freq ∧ textLt r1.phrase r2.phrase = false)))

instance : DecidableRel rowLe := fun r1 r2 => by
  unfold rowLe
  infer_instance

theorem charListLt_asymm :
    ∀ {a b : List Char}, charListLt a b = true → charListLt b a = false := by
  intro a
  induction a with
  | nil =>
    intro b h
    cases b with
    | nil => simp [charListLt] at h
    | cons y bs => simp [charListLt]
  | cons x as ih =>
    intro b h
    cases b with
    | nil => simp [charListLt] at h
    | cons y bs =>
      rw [charListLt] at h ⊢
      by_cases h1 : x.toNat < y.toNat
      · rw [if_neg (by omega), if_pos h1]
      · rw [if_neg h1] at h
        by_cases h2 : y.toNat < x.toNat
        · rw [if_pos h2] at h
          cases h
        · rw [if_neg h2] at h
          rw [if_neg h2, if_neg h1]
          exact ih h

theorem charListLt_false_trans :
    ∀ {a b c : List Char}, charListLt a b = false → charListLt b c = false →
      charListLt a c = false := by
  intro a
  induction a with
  | nil =>
    intro b c h1 h2
    cases b with
    | nil => exact h2
    | cons y bs =>
      simp [charListLt] at h1
  | cons x as ih =>
    intro b c h1 h2
    cases b with
    | nil =>
      cases c with
      | nil => simp [charListLt]
      | cons z cs => simp [charListLt] at h2
    | cons y bs =>
      cases c with
      | nil => simp [charListLt]
      | cons z cs =>
        rw [charListLt] at h1 h2 ⊢
        by_cases hxy : x.toNat < y.toNat
        · rw [if_pos hxy] at h1
          cases h1
        · rw [if_neg hxy] at h1
          by_cases hyz : y.toNat < z.toNat
          · rw [if_pos hyz] at h2
            cases h2
          · rw [if_neg hyz] at h2
            rw [if_neg (by omega)]
            by_cases hzx : z.toNat < x.toNat
            · rw [if_pos hzx]
            · rw [if_neg hzx]
              have hyx : ¬y.toNat < x.toNat := by omega
              have hzy : ¬z.toNat < y.toNat := by omega
              rw [if_neg hyx] at h1
              rw [if_neg hzy] at h2
              exact ih h1 h2

theorem sortIdLtb_trans {a b c : Option Nat} (h1 : sortIdLtb a b = true)
    (h2 : sortIdLtb b c = true) : sortIdLtb a c = true := by
  rcases a with _ | x <;> rcases b with _ | y <;> rcases c with _ | z <;>
    simp [sortIdLtb] at * <;> omega

instance : IsTrans DictRow rowLe := ⟨by
  intro a b c hab hbc
  unfold rowLe at hab hbc ⊢
  rcases hab with h1 | ⟨he1, h1⟩ <;> rcases hbc with h2 | ⟨he2, h2⟩
  · exact Or.inl (sortIdLtb_trans h1 h2)
  · rw [← he2]
    exact Or.inl h1
  · rw [he1]
    exact Or.inl h2
  · refine Or.inr ⟨he1.trans he2, ?_⟩
    rcases h1 with hf1 | ⟨hfe1, hp1⟩ <;> rcases h2 with hf2 | ⟨hfe2, hp2⟩
    · exact Or.inl (by omega)
    · exact Or.inl (by omega)
    · exact Or.inl (by omega)
    · exact Or.inr ⟨hfe1.trans hfe2,
        charListLt_false_trans hp1 hp2⟩⟩

instance : IsTotal DictRow rowLe := ⟨by
  intro a b
  unfold rowLe
  rcases ha : a.sort_id with _ | x <;> rcases hb : b.sort_id with _ | y
  · -- both NULL: tie on sort_id, break on freq then text
    rcases Nat.lt_trichotomy a.freq b.freq with h | h | h
    · exact Or.inr (Or.inr ⟨rfl, Or.inl h⟩)
    · by_cases hp : textLt a.phrase b.phrase = true
      · exact Or.inr (Or.inr ⟨rfl, Or.inr ⟨h.symm, charListLt_asymm hp⟩⟩)
      · exact Or.inl (Or.inr ⟨rfl, Or.inr ⟨h, by simpa using hp⟩⟩)
    · exact Or.inl (Or.inr ⟨rfl, Or.inl h⟩)
  · exact Or.inl (Or.inl (by simp [sortIdLtb]))
  · exact Or.inr (Or.inl (by simp [sortIdLtb]))
  · rcases Nat.lt_trichotomy x y with h | h | h
    · exact Or.inl (Or.inl (by simp [sortIdLtb, h]))
    · subst h
      rcases Nat.lt_trichotomy a.freq b.freq with h | h | h
      · exact Or.inr (Or.inr ⟨rfl, Or.inl h⟩)
      · by_cases hp : textLt a.phrase b.phrase = true
        · exact Or.inr (Or.inr ⟨rfl, Or.inr ⟨h.symm, charListLt_asymm hp⟩⟩)
        · exact Or.inl (Or.inr ⟨rfl, Or.inr ⟨h, by simpa using hp⟩⟩)
      · exact Or.inl (Or.inr ⟨rfl, Or.inl h⟩)
    · exact Or.inr (Or.inl (by simp [sortIdLtb, h]))⟩

/-- The rows the `SELECT ... WHERE syllables = ? ORDER BY ...` statement of
`SqliteDictionary::lookup_phrase` returns, in order.  (Since
`(syllables, phrase)` is the table's primary key, the comparator is total
on the matching rows and the sorted order is unique, so any sorting
algorithm models the query; `insertionSort` is used here.) -/
def sqlite_lookup_rows (table : List DictRow) (key : List Nat) :
    List DictRow :=
  List.insertionSort rowLe (table.filter fun r => r.syllables == key)

/-- `SqliteDictionary::lookup_phrase`: the selected `(phrase, freq)`
columns of the ordered rows. -/
def sqlite_lookup_phrase (table : List DictRow) (key : List Nat) :
    List Chewing.Phrase :=
  (sqlite_lookup_rows table key).map fun r => ⟨r.phrase, r.freq⟩

/-- Claim C5, counterexample.  On a table with one row whose `sort_id` is
NULL and one row with `sort_id = 1`, the NULL row comes *first* in the
lookup result (SQLite sorts NULLs first in ascending order), while the
claim says rows without a `sort_id` sort after all rows that have one. -/
theorem c5_sqlite_lookup_nulls_first_counterexample :
    sqlite_lookup_rows [⟨[1], "乙", 9, some 1, none⟩, ⟨[1], "甲", 5, none, none⟩]
        [1] =
      [⟨[1], "甲", 5, none, none⟩, ⟨[1], "乙", 9, some 1, none⟩] ∧
    DictRow.sort_id ⟨[1], "甲", 5, none, none⟩ = none ∧
    DictRow.sort_id ⟨[1], "乙", 9, some 1, none⟩ ≠ none := by
  refine ⟨?_, rfl, by simp⟩
  decide

/-- The amended claim C5.  `lookup_phrase` returns exactly the rows
matching the queried syllables, ordered by `sort_id` ascending with NULLs
*first*, then frequency descending, then phrase text descending; in
particular every row whose `sort_id` is NULL sorts *before* all rows that
have a `sort_id`. -/
theorem c5_sqlite_lookup_order (table : List DictRow) (key : List Nat) :
    (sqlite_lookup_rows table key).Pairwise rowLe ∧
    (sqlite_lookup_rows table key).Pairwise
      (fun r1 r2 => r2.sort_id = none → r1.sort_id = none) ∧
    (sqlite_lookup_rows table key).Perm
      (table.filter fun r => r.syllables == key) := by
  have hsorted : (sqlite_lookup_rows table key).Pairwise rowLe :=
    List.sorted_insertionSort rowLe _
  have hperm : (sqlite_lookup_rows table key).Perm
      (table.filter fun r => r.syllables == key) :=
    List.perm_insertionSort rowLe _
  refine ⟨hsorted, ?_, hperm⟩
  · refine hsorted.imp ?_
    intro r1 r2 h h2
    unfold rowLe at h
    rcases h with h | ⟨he, _⟩
    · rw [h2] at h
      rcases hs : r1.sort_id with _ | x
      · rfl
      · rw [hs] at h
        simp [sortIdLtb] at h
    · rw [he, h2]


/-! ## Claim C6: opening the user dictionary and the userphrase_v1
migration (`src/dictionary/sqlite.rs`)

The database file state is modelled as the contents of its tables.
`core_tables` says whether the four tables that `initialize_tables` creates
with CREATE TABLE IF NOT EXISTS exist.  A plain SQL INSERT into
`migration_v1` (whose `name` column is the primary key) fails with a
UNIQUE-constraint error when the name is already recorded — this is exactly
what `migrate_from_userphrase_v1` executes on its early path. -/

inductive SqliteError where
  | unique_constraint (table : String)
  | missing_table (table : String)
deriving DecidableEq, Repr

structure V1Row where
  phrase : String
  orig_freq : Nat
  user_freq : Nat
  time : Nat
  phones : List Nat
deriving DecidableEq, Repr

structure UserphraseV2Row where
  id : Nat
  user_freq : Nat
  time : Nat
deriving DecidableEq, Repr

structure Db where
  core_tables : Bool
  userphrase_v1 : Option (List V1Row)
  migration_v1 : List String
  dictionary_v1 : List DictRow
  userphrase_v2 : List UserphraseV2Row
deriving DecidableEq, Repr

/-- `SqliteDictionary::initialize_tables`: CREATE TABLE IF NOT EXISTS for
the four core tables (plus the WAL pragma, a no-op on the logical
contents). -/
def initialize_tables (db : Db) : Db := { db with core_tables := true }

/-- A plain `INSERT INTO migration_v1 (name) VALUES (?)`: `name` is the
primary key, so inserting an already-present name is a constraint
violation. -/
def migration_insert (db : Db) (name : String) : Except SqliteError Db :=
  if db.migration_v1.contains name then .error (.unique_constraint "migration_v1")
  else .ok { db with migration_v1 := db.migration_v1 ++ [name] }

/-- `INSERT OR REPLACE INTO dictionary_v1` keyed on the primary key
`(syllables, phrase)` (row order of the replaced entry kept; the table is
logically a set of rows). -/
def insert_or_replace_row : List DictRow → DictRow → List DictRow
  | [], r => [r]
  | q :: rest, r =>
    if q.syllables == r.syllables && q.phrase == r.phrase then r :: rest
    else q :: insert_or_replace_row rest r

/-- The syllables decoded from the fixed-width phone columns of a
`userphrase_v1` row: each valid, non-empty 16-bit syllable is kept
(`Syllable::try_from` never fails). -/
def phones_to_syllables (phones : List Nat) : List Syllable :=
  phones.filterMap fun v =>
    if (⟨v⟩ : Syllable).is_empty then none else some ⟨v⟩

/-- `syllables_bytes`: the concatenated little-endian bytes of each
syllable's 16-bit encoding. -/
def syllables_bytes (syls : List Syllable) : List Nat :=
  syls.flatMap fun s => [s.to_u16 % 256, s.to_u16 / 256]

/-- `SqliteDictionary::migrate_from_userphrase_v1`.  Note the early path:
when there is nothing to migrate (no `userphrase_v1` table) *or the
migration is already recorded*, the function still executes the plain
INSERT of the migration name. -/
def migrate_from_userphrase_v1 (db : Db) : Except SqliteError Db :=
  let has_v1 := db.userphrase_v1.isSome
  let migrated := db.migration_v1.contains "migrate_from_userphrase_v1"
  if !has_v1 || migrated then
    migration_insert db "migrate_from_userphrase_v1"
  else
    match db.userphrase_v1 with
    | none => migration_insert db "migrate_from_userphrase_v1"
    | some rows =>
      let db1 := rows.foldl
        (fun acc item =>
          let row_id := acc.userphrase_v2.length + 1
          { acc with
            userphrase_v2 :=
              acc.userphrase_v2 ++ [⟨row_id, item.user_freq, item.time⟩],
            dictionary_v1 := insert_or_replace_row acc.dictionary_v1
              ⟨syllables_bytes (phones_to_syllables item.phones),
                item.phrase, item.orig_freq, none, some row_id⟩ })
        db
      migration_insert db1 "migrate_from_userphrase_v1"

/-- `SqliteDictionary::ensure_tables`. -/
def ensure_tables (db : Db) : Except SqliteError Db :=
  if db.core_tables then .ok db else .error (.missing_table "dictionary_v1")

/-- `SqliteDictionary::open`: initialize, migrate, ensure. -/
def sqlite_open (db : Db) : Except SqliteError Db := do
  let db := initialize_tables db
  let db ← migrate_from_userphrase_v1 db
  ensure_tables db

/-- A fresh, empty database file (no tables yet). -/
def freshDb : Db := ⟨false, none, [], [], []⟩

/-- A database file holding the prior `userphrase_v1` layout with one
phrase, mirroring the repository's own migration unit test (the phrase
測試 over the two phones `10268`, `8708`). -/
def v1Db : Db :=
  ⟨false,
    some [⟨"測試", 9318, 9318, 186613,
      [10268, 8708, 0, 0, 0, 0, 0, 0, 0, 0, 0]⟩],
    [], [], []⟩

/-- Claim C6 (status `code_bug`).  The claim says opening the same user
dictionary file any number of times succeeds and the migration is
idempotent.  In the code, every call of `migrate_from_userphrase_v1` —
including the early "don't need to migrate" path — executes a plain
`INSERT INTO migration_v1 (name) VALUES ('migrate_from_userphrase_v1')`.
`name` is the table's primary key, so the second open of *any* file fails
with a UNIQUE-constraint error:

* the first open of a fresh file succeeds and records the migration name;
  the second open fails;
* the first open of a file with `userphrase_v1` data migrates the data
  correctly (exactly as the repository's own test checks) and records the
  migration; the second open again fails instead of being a no-op. -/
theorem c6_sqlite_open_second_time_fails :
    sqlite_open freshDb =
      .ok ⟨true, none, ["migrate_from_userphrase_v1"], [], []⟩ ∧
    sqlite_open ⟨true, none, ["migrate_from_userphrase_v1"], [], []⟩ =
      .error (.unique_constraint "migration_v1") ∧
    sqlite_open v1Db =
      .ok ⟨true, v1Db.userphrase_v1, ["migrate_from_userphrase_v1"],
        [⟨[28, 40, 4, 34], "測試", 9318, none, some 1⟩],
        [⟨1, 9318, 186613⟩]⟩ ∧
    sqlite_open ⟨true, v1Db.userphrase_v1, ["migrate_from_userphrase_v1"],
        [⟨[28, 40, 4, 34], "測試", 9318, none, some 1⟩],
        [⟨1, 9318, 186613⟩]⟩ =
      .error (.unique_constraint "migration_v1") := by
  refine ⟨rfl, rfl, rfl, rfl⟩

/-! ## Claim C7: `insert` and DuplicatePhrase
(`src/dictionary.rs` `DictionaryMut for HashMap`,
`src/dictionary/sqlite.rs` `DictionaryMut for SqliteDictionary`) -/

inductive DictionaryUpdateError where
  | duplicate_phrase
  | sqlite_failure
deriving DecidableEq, Repr

/-- The in-memory `HashMap<Vec<Syllable>, Vec<Phrase>>` dictionary, seen
through its lookup function (`lookup_phrase` returns the stored vector, or
nothing for a missing key; `entry(..).or_default()` makes a missing key and
an empty stored vector observationally equal, so the function view loses
nothing). -/
abbrev HashMapDict := List Syllable → List Chewing.Phrase

/-- `DictionaryMut::insert` for `HashMap`: report `DuplicatePhrase` when a
phrase with the same text is already stored at the syllables (leaving the
map untouched), otherwise push the phrase at the end of the entry. -/
def hashmap_insert (m : HashMapDict) (syls : List Syllable)
    (p : Chewing.Phrase) : Except DictionaryUpdateError HashMapDict :=
  if (m syls).any (fun it => it.phrase == p.phrase) then
    .error .duplicate_phrase
  else
    .ok fun k => if k == syls then m syls ++ [p] else m k

/-- `DictionaryMut::insert` for `SqliteDictionary`.  The statement the
source prepares is

  INSERT OR REPLACE INTO dictionary_v1 (syllables, phrase, freq,) VALUES (?, ?, ?)

with a trailing comma after `freq` — a SQL syntax error — so
`prepare_cached` fails on every call and `insert` always returns the
wrapped SQLite error without touching the database (and, even as written,
the OR REPLACE upsert could never produce `DuplicatePhrase`). -/
def sqlite_insert (db : Db) (syls : List Syllable) (p : Chewing.Phrase) :
    Except DictionaryUpdateError Db :=
  let _ := db
  let _ := syls
  let _ := p
  .error .sqlite_failure

/-- Claim C7, counterexample.  On a freshly opened (empty) user dictionary
no phrase with text 冊 exists at the queried syllables, yet
`SqliteDictionary::insert` fails (with a non-DuplicatePhrase error) and the
phrase never becomes a member of `lookup_phrase` — refuting the claim's
"otherwise p becomes a member of lookup_phrase(S)" for this writable
dictionary. -/
theorem c7_sqlite_insert_never_inserts_counterexample :
    sqlite_insert ⟨true, none, ["migrate_from_userphrase_v1"], [], []⟩
        [⟨512⟩] ⟨"冊", 100⟩ = .error .sqlite_failure ∧
    sqlite_insert ⟨true, none, ["migrate_from_userphrase_v1"], [], []⟩
        [⟨512⟩] ⟨"冊", 100⟩ ≠ .error .duplicate_phrase ∧
    sqlite_lookup_phrase
        (Db.dictionary_v1 ⟨true, none, ["migrate_from_userphrase_v1"], [], []⟩)
        (syllables_bytes [⟨512⟩]) = [] :=
  ⟨rfl, fun h => by simp [sqlite_insert] at h, rfl⟩

/-- The amended claim C7, holding for the `HashMap` dictionary: `insert`
returns `DuplicatePhrase` exactly when a phrase with the same text already
exists at the syllables (and then returns no modified map — the contents
are unchanged), and otherwise succeeds with the phrase appended to that
entry and every other entry unchanged.  (`SqliteDictionary::insert` instead
always fails with a SQLite error: see the counterexample.) -/
theorem c7_hashmap_insert_duplicate_phrase (m : HashMapDict)
    (syls : List Syllable) (p : Chewing.Phrase) :
    ((m syls).any (fun it => it.phrase == p.phrase) = true →
      hashmap_insert m syls p = .error .duplicate_phrase) ∧
    ((m syls).any (fun it => it.phrase == p.phrase) = false →
      ∃ m', hashmap_insert m syls p = .ok m' ∧
        m' syls = m syls ++ [p] ∧ p ∈ m' syls ∧
        ∀ k, k ≠ syls → m' k = m k) := by
  constructor
  · intro h
    unfold hashmap_insert
    rw [if_pos h]
  · intro h
    refine ⟨fun k => if k == syls then m syls ++ [p] else m k, ?_, ?_, ?_, ?_⟩
    · unfold hashmap_insert
      rw [if_neg (by simp [h])]
    · simp
    · simp
    · intro k hk
      simp [hk]

/-- A concrete one-entry map for the C7 witness. -/
def c7m : HashMapDict := fun k => if k == [⟨512⟩] then [⟨"冊", 1⟩] else []

/-- Witness for `c7_hashmap_insert_duplicate_phrase`: both branches at a
concrete one-entry map. -/
theorem c7_hashmap_insert_duplicate_phrase_witness :
    (hashmap_insert c7m [⟨512⟩] ⟨"冊", 100⟩ = .error .duplicate_phrase) ∧
    ∃ m', hashmap_insert c7m [⟨512⟩] ⟨"策", 100⟩ = .ok m' ∧
      m' [⟨512⟩] = c7m [⟨512⟩] ++ [⟨"策", 100⟩] ∧
      (⟨"策", 100⟩ : Chewing.Phrase) ∈ m' [⟨512⟩] ∧
      ∀ k, k ≠ [⟨512⟩] → m' k = c7m k :=
  ⟨(c7_hashmap_insert_duplicate_phrase c7m [⟨512⟩] ⟨"冊", 100⟩).1 (by decide),
    (c7_hashmap_insert_duplicate_phrase c7m [⟨512⟩] ⟨"策", 100⟩).2 (by decide)⟩

/-! ## Claims C8 and C9: the Standard and Hsu phonetic key editors
(`src/editor/phonetic/standard.rs`, `src/editor/phonetic/hsu.rs`)

`KeyBuf` is the four-slot buffer of the phonetic editors
(fields `.0`–`.3` of the Rust tuple struct: initial, medial glide, final,
tone).  The editors in these files return `TryCommit` for the commit
behavior. -/

inductive KeyBehavior where
  | Ignore
  | Absorb
  | Commit
  | TryCommit
  | KeyError
  | Error
  | NoWord
  | OpenSymbolTable
deriving DecidableEq, Repr

structure KeyBuf where
  f0 : Option Bopomofo
  f1 : Option Bopomofo
  f2 : Option Bopomofo
  f3 : Option Bopomofo
deriving DecidableEq, Repr

/-- The `key_buf.0.is_some() || … || key_buf.3.is_some()` test of the
Standard editor's tone branch. -/
def KeyBuf.has_any (b : KeyBuf) : Bool :=
  b.f0.isSome || b.f1.isSome || b.f2.isSome || b.f3.isSome

/-- `Hsu::has_initial_or_medial`. -/
def KeyBuf.has_initial_or_medial (b : KeyBuf) : Bool :=
  b.f0.isSome || b.f1.isSome

/-- The Standard (Dachen) layout's key table, by layout-independent key
index (`KeyIndex::Kn` modelled as `n`); keys outside the table map to
`none` (the `_ => return KeyError` arm). -/
def standard_map : Nat → Option Bopomofo
  | 1 => some .B | 2 => some .D | 3 => some .TONE3 | 4 => some .TONE4
  | 5 => some .ZH | 6 => some .TONE2 | 7 => some .TONE5 | 8 => some .A
  | 9 => some .AI | 10 => some .AN | 11 => some .ER
  | 15 => some .P | 16 => some .T | 17 => some .G | 18 => some .J
  | 19 => some .CH | 20 => some .Z | 21 => some .I | 22 => some .O
  | 23 => some .EI | 24 => some .EN
  | 27 => some .M | 28 => some .N | 29 => some .K | 30 => some .Q
  | 31 => some .SH | 32 => some .C | 33 => some .U | 34 => some .E
  | 35 => some .AU | 36 => some .ANG
  | 38 => some .F | 39 => some .L | 40 => some .H | 41 => some .X
  | 42 => some .R | 43 => some .S | 44 => some .IU | 45 => some .EH
  | 46 => some .OU | 47 => some .ENG | 48 => some .TONE1
  | _ => none

/-- `Standard::key_press` (`PhoneticKeyEditor for Standard`):

* unmapped keys are `KeyError`;
* a tone key with any slot occupied returns `TryCommit`;
* otherwise a non-tone key first drops the tone slot (`key_buf.3.take()`);
* `TONE1` (space) is then rejected as `KeyError` ("in C libchewing
  TONE1 / Space is not a phonetic symbol");
* finally the symbol replaces its kind's slot and the key is absorbed. -/
def standard_key_press (buf : KeyBuf) (index : Nat) :
    KeyBehavior × KeyBuf :=
  match standard_map index with
  | none => (.KeyError, buf)
  | some b =>
    if b.kind == .tone && buf.has_any then (.TryCommit, buf)
    else
      let buf := if b.kind != .tone then { buf with f3 := none } else buf
      if b == .TONE1 then (.KeyError, buf)
      else
        let buf :=
          match b.kind with
          | .initial => { buf with f0 := some b }
          | .medial => { buf with f1 := some b }
          | .rime => { buf with f2 := some b }
          | .tone => { buf with f3 := some b }
        (.Absorb, buf)

/-- Claim C8, counterexample.  Pressing the tone-2 key (`K6`) on an empty
Standard editor stores the tone and returns `Absorb`, not the `KeyError`
the claim requires for every tone key on an empty buffer (only space /
`TONE1` is rejected). -/
theorem c8_standard_tone_key_empty_absorb_counterexample :
    standard_key_press ⟨none, none, none, none⟩ 6 =
      (.Absorb, ⟨none, none, none, some .TONE2⟩) ∧
    KeyBehavior.Absorb ≠ KeyBehavior.KeyError :=
  ⟨rfl, by decide⟩

/-- The amended claim C8.  For the Standard editor's tone keys
(`K3`/`K4`/`K6`/`K7` are tones 3, 4, 2, 5; `K48` is space/`TONE1`):

* with any slot occupied, every tone key returns the commit behavior
  (`TryCommit`), leaving the buffer unchanged;
* on an empty buffer, space returns `KeyError` while the other tone keys
  are absorbed into the tone slot;
* space never writes an implicit first tone: it always leaves the buffer
  unchanged. -/
theorem c8_standard_tone_key_behavior (buf : KeyBuf) (k : Nat)
    (hk : k = 3 ∨ k = 4 ∨ k = 6 ∨ k = 7 ∨ k = 48) :
    (buf.has_any = true → standard_key_press buf k = (.TryCommit, buf)) ∧
    (buf.has_any = false →
      (k = 48 → standard_key_press buf k = (.KeyError, buf)) ∧
      (k ≠ 48 → standard_key_press buf k =
        (.Absorb, { buf with f3 := standard_map k }))) ∧
    (standard_key_press buf 48).2 = buf := by
  have hspace : (standard_key_press buf 48).2 = buf := by
    unfold standard_key_press standard_map
    by_cases h : buf.has_any
    · simp [Bopomofo.kind, h]
    · simp [Bopomofo.kind, h]
  rcases hk with rfl | rfl | rfl | rfl | rfl <;>
    refine ⟨?_, ?_, hspace⟩ <;> intro h <;>
    first
      | (unfold standard_key_press standard_map; simp [Bopomofo.kind, h])
      | (refine ⟨?_, ?_⟩ <;> intro hk2 <;>
          first
            | (unfold standard_key_press standard_map; simp [Bopomofo.kind, h])
            | omega
            | (exact absurd rfl hk2))

/-- Witness for `c8_standard_tone_key_behavior`: the tone-2 key on an empty
buffer and on a buffer holding ㄅ. -/
theorem c8_standard_tone_key_behavior_witness :
    (KeyBuf.has_any ⟨some .B, none, none, none⟩ = true →
      standard_key_press ⟨some .B, none, none, none⟩ 6 =
        (.TryCommit, ⟨some .B, none, none, none⟩)) ∧
    (KeyBuf.has_any ⟨some .B, none, none, none⟩ = false →
      (6 = 48 → standard_key_press ⟨some .B, none, none, none⟩ 6 =
        (.KeyError, ⟨some .B, none, none, none⟩)) ∧
      (6 ≠ 48 → standard_key_press ⟨some .B, none, none, none⟩ 6 =
        (.Absorb, { (⟨some .B, none, none, none⟩ : KeyBuf) with
          f3 := standard_map 6 }))) ∧
    (standard_key_press ⟨some .B, none, none, none⟩ 48).2 =
      ⟨some .B, none, none, none⟩ :=
  c8_standard_tone_key_behavior ⟨some .B, none, none, none⟩ 6
    (by decide)

/-! The USB-HID-like `KeyCode` alphabet from `src/keymap.rs`. -/

inductive KeyCode where
  | N1 | N2 | N3 | N4 | N5 | N6 | N7 | N8 | N9 | N0
  | Minus | Equal | BSlash | Grave
  | Q | W | E | R | T | Y | U | I | O | P | LBracket | RBracket
  | A | S | D | F | G | H | J | K | L | SColon | Quote
  | Z | X | C | V | B | N | M | Comma | Dot | Slash | Space
deriving DecidableEq, Repr

/-- `Hsu::is_hsu_end_key`: the end keys `s d f j space`, active only when
one of the first three slots is occupied. -/
def hsu_end_key (buf : KeyBuf) (code : KeyCode) : Bool :=
  match code with
  | .S | .D | .F | .J | .Space =>
    buf.f0.isSome || buf.f1.isSome || buf.f2.isSome
  | _ => false

/-- The ambiguous key table of the Hsu input path (the non-end-key branch
of `Hsu::key_press`); `none` is the `_ => return NoWord` arm. -/
def hsu_map (buf : KeyBuf) : KeyCode → Option Bopomofo
  | .A => some (if buf.has_initial_or_medial then .EI else .C)
  | .B => some .B
  | .C => some .SH
  | .D => some .D
  | .E => some .I
  | .F => some .F
  | .G => some (if buf.has_initial_or_medial then .E else .G)
  | .H => some (if buf.has_initial_or_medial then .O else .H)
  | .I => some .AI
  | .J => some .ZH
  | .K => some (if buf.has_initial_or_medial then .ANG else .K)
  | .L => some (if buf.has_initial_or_medial then .ENG else .L)
  | .M => some (if buf.has_initial_or_medial then .AN else .M)
  | .N => some (if buf.has_initial_or_medial then .EN else .N)
  | .O => some .OU
  | .P => some .P
  | .R => some .R
  | .S => some .S
  | .T => some .T
  | .U => some .IU
  | .V => some .CH
  | .W => some .AU
  | .X => some .U
  | .Y => some .A
  | .Z => some .Z
  | _ => none

/-- The fuzzy step that both branches of `Hsu::key_press` perform (comment
"fuzzy ㄍㄧ to ㄐㄧ and ㄍㄩ to ㄐㄩ"): when the buffer holds initial `G` or
`J` with medial `I`, the code executes `self.key_buf.0.replace(Bopomofo::IU)`
— writing the medial symbol `IU` into the *initial* slot. -/
def hsu_fuzzy (buf : KeyBuf) : KeyBuf :=
  match buf.f0, buf.f1 with
  | some .G, some .I => { buf with f0 := some .IU }
  | some .J, some .I => { buf with f0 := some .IU }
  | _, _ => buf

/-- `Hsu::key_press` (`PhoneticKeyEditor for Hsu`). -/
def hsu_key_press (buf : KeyBuf) (code : KeyCode) : KeyBehavior × KeyBuf :=
  if hsu_end_key buf code then
    let buf :=
      if buf.f1.isNone && buf.f2.isNone then
        match buf.f0 with
        | some .J => { buf with f0 := some .ZH }
        | some .Q => { buf with f0 := some .CH }
        | some .X => { buf with f0 := some .SH }
        | some .H => { buf with f0 := none, f2 := some .O }
        | some .G => { buf with f0 := none, f2 := some .E }
        | some .M => { buf with f0 := none, f2 := some .AN }
        | some .N => { buf with f0 := none, f2 := some .EN }
        | some .K => { buf with f0 := none, f2 := some .ANG }
        | some .L => { buf with f0 := none, f2 := some .ER }
        | _ => buf
      else buf
    (.TryCommit, hsu_fuzzy buf)
  else
    match hsu_map buf code with
    | none => (.NoWord, buf)
    | some b =>
      let buf := hsu_fuzzy buf
      let buf :=
        if (b.kind == .medial && b == .U) ||
            (b.kind == .rime && buf.f1.isNone) then
          match buf.f0 with
          | some .J => { buf with f0 := some .ZH }
          | some .Q => { buf with f0 := some .CH }
          | some .X => { buf with f0 := some .SH }
          | _ => buf
        else buf
      let buf :=
        if b == .I || b == .IU then
          match buf.f0 with
          | some .ZH => { buf with f0 := some .J }
          | some .CH => { buf with f0 := some .Q }
          | some .SH => { buf with f0 := some .X }
          | _ => buf
        else buf
      let buf :=
        match b.kind with
        | .initial => { buf with f0 := some b }
        | .medial => { buf with f1 := some b }
        | .rime => { buf with f2 := some b }
        | .tone => { buf with f3 := some b }
      (.Absorb, buf)

/-- Claim C9, counterexample.  Pressing an end key with buffer `G + I` (or
`J + I`) leaves the buffer with `IU` in the *initial* slot and `I` still in
the medial slot — not initial `J` with medial `IU` as the claim states
(nor `J + I` as the code's own comment describes). -/
theorem c9_hsu_fuzzy_end_key_counterexample :
    hsu_key_press ⟨some .G, some .I, none, none⟩ .Space =
      (.TryCommit, ⟨some .IU, some .I, none, none⟩) ∧
    hsu_key_press ⟨some .J, some .I, none, none⟩ .Space =
      (.TryCommit, ⟨some .IU, some .I, none, none⟩) ∧
    (⟨some .IU, some .I, none, none⟩ : KeyBuf) ≠
      ⟨some .J, some .IU, none, none⟩ :=
  ⟨rfl, rfl, by decide⟩

/-- The amended claim C9.  In the Hsu editor, pressing any end key while
the buffer holds initial `G` with medial `I`, or initial `J` with medial
`I`, commits with the buffer rewritten to hold `IU` in the initial slot and
`I` (unchanged) in the medial slot — the code writes `IU` over the initial
(`key_buf.0.replace(Bopomofo::IU)`), so the result is not `J` + `IU`. -/
theorem c9_hsu_fuzzy_end_key_actual (f2 f3 : Option Bopomofo)
    (code : KeyCode)
    (hcode : code = .S ∨ code = .D ∨ code = .F ∨ code = .J ∨
      code = .Space) :
    hsu_key_press ⟨some .G, some .I, f2, f3⟩ code =
      (.TryCommit, ⟨some .IU, some .I, f2, f3⟩) ∧
    hsu_key_press ⟨some .J, some .I, f2, f3⟩ code =
      (.TryCommit, ⟨some .IU, some .I, f2, f3⟩) := by
  rcases hcode with rfl | rfl | rfl | rfl | rfl <;> exact ⟨rfl, rfl⟩

/-- Witness for `c9_hsu_fuzzy_end_key_actual` at the space end key with
empty trailing slots. -/
theorem c9_hsu_fuzzy_end_key_actual_witness :
    hsu_key_press ⟨some .G, some .I, none, none⟩ KeyCode.Space =
      (.TryCommit, ⟨some .IU, some .I, none, none⟩) ∧
    hsu_key_press ⟨some .J, some .I, none, none⟩ KeyCode.Space =
      (.TryCommit, ⟨some .IU, some .I, none, none⟩) :=
  c9_hsu_fuzzy_end_key_actual none none KeyCode.Space (by decide)
